import Mathlib

/-!
Verification of the OpenBao Raft FSM storage layer, snapshot restore,
standby request forwarding and core initialization against their
natural-language specification.

Go byte strings are modelled as `List Char` (the repository only relies on
byte-wise operations and byte-wise lexicographic comparison, which for the
keys in question coincides with comparison of code points).  Fallible Go
functions are modelled with `Except`; a `panic(...)` in the source is a
dedicated result constructor.  The bolt database bucket is modelled as an
association list ordered by key (bolt cursors iterate in key order), with
sortedness an explicit hypothesis of the ordering-sensitive theorems.
-/

set_option maxHeartbeats 1000000

abbrev Key := List Char
abbrev Val := List Char

/-- Go byte-wise string comparison `s < t`. -/
def goLt : Key → Key → Bool
  | [], [] => false
  | [], _ :: _ => true
  | _ :: _, [] => false
  | a :: as, b :: bs => a < b || (a == b && goLt as bs)

/-- Go byte-wise string comparison `s <= t`. -/
def goLe (s t : Key) : Bool := !goLt t s

/-- `bytes.HasPrefix b p` / `strings.HasPrefix b p` (argument order: pfx first). -/
def isPfx : Key → Key → Bool
  | [], _ => true
  | _ :: _, [] => false
  | a :: as, b :: bs => a == b && isPfx as bs

/-- `strings.TrimPrefix s pre`. -/
def goTrimPfx (pre s : Key) : Key := if isPfx pre s then s.drop pre.length else s

/-- Does the string contain a `'/'` byte (`strings.Index(s, "/") != -1`)? -/
def containsSlash (s : Key) : Bool := s.any (fun c => c == '/')

/-- Truncation of a string at its first `'/'` (inclusive): for
`strings.Index(key, "/") = i`, this is `key[:i+1]`; when there is no slash
it is the string itself. -/
def collapseName : Key → Key
  | [] => []
  | c :: rest => if c = '/' then ['/'] else c :: collapseName rest

/-- Split a path into `'/'`-separated components (used to model
`path/filepath.Clean`). -/
def splitComps : List Char → List (List Char)
  | [] => [[]]
  | c :: rest =>
    if c = '/' then [] :: splitComps rest
    else
      match splitComps rest with
      | [] => [[c]]
      | h :: t => (c :: h) :: t

/-- The component-stack processing of `path/filepath.Clean`: drop empty and
`.` components, resolve `..` against the preceding component (at the root,
`..` components are dropped; in a relative path leading `..` components are
retained).  The stack is kept reversed. -/
def cleanStack (rooted : Bool) : List (List Char) → List (List Char) → List (List Char)
  | stack, [] => stack
  | stack, c :: rest =>
    if c = [] || c = ['.'] then cleanStack rooted stack rest
    else if c = ['.', '.'] then
      match stack with
      | [] => if rooted then cleanStack rooted [] rest else cleanStack rooted [['.', '.']] rest
      | top :: s2 =>
        if top = ['.', '.'] then cleanStack rooted (c :: top :: s2) rest
        else cleanStack rooted s2 rest
    else cleanStack rooted (c :: stack) rest

/-- `path/filepath.Clean` for the `'/'` separator. -/
def goClean (p : List Char) : List Char :=
  if p = [] then ['.']
  else
    let rooted := p.head? = some '/'
    let comps := cleanStack rooted [] (splitComps p)
    let body := List.intercalate ['/'] comps.reverse
    if rooted then '/' :: body
    else if body = [] then ['.'] else body

/-- `path/filepath.Join(a, b)`: empty elements are skipped, the rest are
joined with `'/'` and cleaned. -/
def goJoin (a b : List Char) : List Char :=
  if a = [] then (if b = [] then [] else goClean b)
  else goClean (a ++ '/' :: b)

/-! ## The bolt data bucket -/

abbrev Store := List (Key × Val)

/-- `Bucket.Get` (first matching key; bolt keys are unique). -/
def storeGet : Store → Key → Option Val
  | [], _ => none
  | (k, v) :: rest, q => if k = q then some v else storeGet rest q

/-- `Bucket.Put`: order-preserving insert-or-replace. -/
def storePut : Store → Key → Val → Store
  | [], k, v => [(k, v)]
  | (k2, v2) :: rest, k, v =>
    if goLt k k2 then (k, v) :: (k2, v2) :: rest
    else if k = k2 then (k, v) :: rest
    else (k2, v2) :: storePut rest k v

/-- `Bucket.Delete`. -/
def storeDel (st : Store) (k : Key) : Store := st.filter (fun kv => !(kv.1 = k : Bool))

/-- Adjacent-pairs strict sortedness of the bucket (bolt invariant). -/
def sortedB : Store → Bool
  | [] => true
  | [_] => true
  | a :: b :: rest => goLt a.1 b.1 && sortedB (b :: rest)

/-- Adjacent-pairs strict sortedness of a key list. -/
def sortedKeysB : List Key → Bool
  | [] => true
  | [_] => true
  | a :: b :: rest => goLt a b && sortedKeysB (b :: rest)

/-- `Cursor.Seek(sp)` followed by forward iteration: on a sorted bucket this
is the suffix of entries whose key is at least `sp`. -/
def seekFrom (st : Store) (sp : Key) : Store := st.dropWhile (fun kv => goLt kv.1 sp)

/-! ## `listPageInner` (physical/raft/fsm.go) -/

/-- The seek start used by `listPageInner`: `filepath.Join(prefix, after)`,
except that an empty `after` or a joined path that no longer carries the
prefix falls back to the prefix itself. -/
def seekPfx (pre a : Key) : Key :=
  if a = [] then pre
  else
    let j := goJoin pre a
    if isPfx pre j then j else pre

/-- The cursor loop of `listPageInner`.  `acc` holds the emitted names in
reverse (Go appends to `keys`; the head of `acc` is `keys[len(keys)-1]`).
Mirrors, in order: the `bytes.HasPrefix` loop condition, the early exit on
`limit`, prefix trimming, the no-slash branch with its `key <= after`
filter, and the folder branch with its last-entry deduplication followed by
the `folder <= after` filter. -/
def listLoop (pre a : Key) (limit : Int) : Store → List Key → List Key
  | [], acc => acc.reverse
  | (k, _) :: rest, acc =>
    if !(isPfx pre k) then acc.reverse
    else if 0 < limit ∧ limit ≤ (acc.length : Int) then acc.reverse
    else
      let key := goTrimPfx pre k
      if containsSlash key then
        let folder := collapseName key
        if acc.head? = some folder then listLoop pre a limit rest acc
        else if !(a = [] : Bool) && goLe folder a then listLoop pre a limit rest acc
        else listLoop pre a limit rest (folder :: acc)
      else
        if !(a = [] : Bool) && goLe key a then listLoop pre a limit rest acc
        else listLoop pre a limit rest (key :: acc)

/-- `listPageInner(tx, prefix, after, limit)` from physical/raft/fsm.go. -/
def listPageInner (st : Store) (pre a : Key) (limit : Int) : List Key :=
  listLoop pre a limit (seekFrom st (seekPfx pre a)) []

/-- `FSM.List` is `ListPage` with empty `after` and `limit = -1`. -/
def fsmList (st : Store) (pre : Key) : List Key := listPageInner st pre [] (-1)

/-! ## Specification-side list pipeline

These definitions follow the words of the specification ("result names with
the given prefix", collapsed at the first slash, filtered strictly above
`after`, consecutive duplicates suppressed, truncated to the limit), for
comparison with `listPageInner`. -/

/-- The result name contributed by key `k` under listing prefix `pre`. -/
def nameOf (pre k : Key) : Key := collapseName (goTrimPfx pre k)

/-- Keys of the bucket carrying the listing prefix, in bucket order. -/
def matchKeys (st : Store) (pre : Key) : List Key :=
  (st.map Prod.fst).filter (fun k => isPfx pre k)

/-- All result names (with consecutive duplicates still present). -/
def allListNames (st : Store) (pre : Key) : List Key :=
  (matchKeys st pre).map (fun k => nameOf pre k)

/-- Suppress consecutive duplicates, also relative to a previously emitted
name `last?`. -/
def destutterFrom : Option Key → List Key → List Key
  | _, [] => []
  | last?, n :: rest =>
    if last? = some n then destutterFrom last? rest
    else n :: destutterFrom (some n) rest

/-- Keep only names strictly greater than `after`; an empty `after` imposes
no lower bound (matching the `after != ""` guard in the source). -/
def filterAfter (a : Key) (ns : List Key) : List Key :=
  if a = [] then ns else ns.filter (fun n => goLt a n)

/-- Keep only names strictly greater than `after`, unconditionally (the
claim as literally stated). -/
def filterAfterStrict (a : Key) (ns : List Key) : List Key :=
  ns.filter (fun n => goLt a n)

/-- Truncate to `limit` entries when `limit` is positive. -/
def takeLim (limit : Int) (xs : List Key) : List Key :=
  if 0 < limit then xs.take limit.toNat else xs

/-- The paging pipeline exactly as the claim words it: names with the
prefix, strictly greater than `after`, deduplicated, truncated. -/
def specPageClaim (st : Store) (pre a : Key) (limit : Int) : List Key :=
  takeLim limit (destutterFrom none (filterAfterStrict a (allListNames st pre)))

/-- The paging pipeline as the code actually computes it (the `after`
filter is disabled for an empty `after`). -/
def specPageA (st : Store) (pre a : Key) (limit : Int) : List Key :=
  takeLim limit (destutterFrom none (filterAfter a (allListNames st pre)))

/-- The seek start does not overshoot `prefix ++ after`.  This holds for
every `after` produced as a result name under a clean slash-terminated (or
empty) prefix; path cleaning inside `filepath.Join` can violate it for
exotic `after` values. -/
def seekOKB (pre a : Key) : Bool := goLe (seekPfx pre a) (pre ++ a)

/-- The cursor loop of `listPageInner` reformulated over the stream of
result names (prefix already trimmed and collapsed); used to relate the
loop to the specification pipeline. -/
def nameLoop (a : Key) (limit : Int) : List Key → List Key → List Key
  | [], acc => acc.reverse
  | n :: rest, acc =>
    if 0 < limit ∧ limit ≤ (acc.length : Int) then acc.reverse
    else if containsSlash n then
      if acc.head? = some n then nameLoop a limit rest acc
      else if !(a = [] : Bool) && goLe n a then nameLoop a limit rest acc
      else nameLoop a limit rest (n :: acc)
    else
      if !(a = [] : Bool) && goLe n a then nameLoop a limit rest acc
      else nameLoop a limit rest (n :: acc)

/-- Truncation to `limit` entries of which `c` are already emitted. -/
def takeLimSub (limit : Int) (c : Nat) (xs : List Key) : List Key :=
  if 0 < limit then xs.take (limit.toNat - c) else xs

/-- The pagination protocol of the specification: repeatedly list a page
of `limit` entries starting after the last entry of the previous page,
until a page comes back empty.  `fuel` bounds the number of rounds. -/
def pagesAux (st : Store) (pre : Key) (limit : Int) : Nat → Key → List (List Key)
  | 0, _ => []
  | fuel + 1, a =>
    if listPageInner st pre a limit = [] then []
    else listPageInner st pre a limit
      :: pagesAux st pre limit fuel ((listPageInner st pre a limit).getLastD [])

/-! ## Raft FSM log application (physical/raft/fsm.go)

Operation type constants (`1 << iota` in the source). -/

def deleteOp : Nat := 1
def putOp : Nat := 2
def restoreCallbackOp : Nat := 4
def getOp : Nat := 8
def verifyReadOp : Nat := 16
def verifyListOp : Nat := 32
def beginTxOp : Nat := 64
def commitTxOp : Nat := 128

/-- hashicorp/raft log types. -/
def logCommand : Nat := 0
def logConfiguration : Nat := 5

structure Op where
  opType : Nat
  key : Key
  value : Val
deriving DecidableEq

structure LogData where
  operations : List Op
deriving DecidableEq

/-- A Go error as observed by `ApplyBatch`: either one wrapping
`physical.ErrTransactionCommitFailure` (so that `errors.Is` matches) or any
other error. -/
inductive GoErr where
  | commitFailure (msg : List Char)
  | other (msg : List Char)
deriving DecidableEq

def GoErr.isCommitFailure : GoErr → Bool
  | .commitFailure _ => true
  | .other _ => false

/-- The text of `physical.ErrTransactionCommitFailure`. -/
def errTxCommitFailureText : List Char := ("transaction commit failure").toList

/-- `err.Error()`: a commit-failure error carries the sentinel text. -/
def GoErr.errorString : GoErr → List Char
  | .commitFailure m => m ++ errTxCommitFailureText
  | .other m => m

/-- `Bucket.Put` at the bbolt level: writing an empty key fails with
`ErrKeyRequired`; other keys succeed. -/
def boltPut (st : Store) (k : Key) (v : Val) : Except GoErr Store :=
  if k = [] then .error (.other (("key required").toList)) else .ok (storePut st k v)

/-- `Bucket.Delete` at the bbolt level: never errors on a writable bucket. -/
def boltDelete (st : Store) (k : Key) : Except GoErr Store := .ok (storeDel st k)

/-- Modelled from the spec: the body of `doVerifyRead` is not among the
provided sources (only its call site in `applyBatchTxOps` is).  Per the
specification, `verify_read(k, v)` is evaluated against the pre-transaction
state and rejects the transaction with a `transaction_commit_failure` error
on mismatch; a missing entry is compared as an empty value. -/
def doVerifyRead (st : Store) (op : Op) : Except GoErr Unit :=
  if (storeGet st op.key).getD [] = op.value then .ok ()
  else .error (.commitFailure (("verify read mismatch: ").toList))

/-- Modelled from the spec: the body of `doVerifyList` is not among the
provided sources.  Per the specification, `verify_list` checks the listing
under the given prefix against the expected result (encoded here as the
newline-joined names) on the pre-transaction state and rejects the
transaction with a `transaction_commit_failure` error on mismatch. -/
def doVerifyList (st : Store) (op : Op) : Except GoErr Unit :=
  if List.intercalate ['\n'] (listPageInner st op.key [] (-1)) = op.value then .ok ()
  else .error (.commitFailure (("verify list mismatch: ").toList))

def opIsTxMarker (op : Op) : Bool := op.opType == beginTxOp || op.opType == commitTxOp

/-- The malformed-transaction error message of `applyBatchTxOps`. -/
def txShapeErrMsg : List Char :=
  ("unsupported transaction: saw beginTxOp/commitTxOp mixed inside other operations: ").toList

def headOpType (ops : List Op) : Nat := ((ops.head?).map Op.opType).getD 0
def lastOpType (ops : List Op) : Nat := ((ops.getLast?).map Op.opType).getD 0

/-- The malformed-transaction test of `applyBatchTxOps`, evaluated when the
operation at position `idx` is a `beginTxOp`/`commitTxOp`:
`ops[0].OpType != beginTxOp || ops[len-1].OpType != commitTxOp ||
(idx != 0 && idx != len-1)`. -/
def txShapeViolation (ops : List Op) (idx : Nat) : Bool :=
  !(headOpType ops == beginTxOp) || !(lastOpType ops == commitTxOp) ||
    (!(idx == 0) && !(idx == ops.length - 1))

/-- The verification pass of `applyBatchTxOps`: before any write, walks all
operations checking transaction shape and evaluating `verify_read` and
`verify_list` against the (unchanged) pre-transaction bucket.  `put` and
`delete` are ignored here; unknown operation types are logged and skipped.
`parseBeginTxOpValue` and the commit-index tracker are not among the
provided sources and do not touch the data bucket; they are modelled as
state-free success. -/
def txVerifyLoop (st : Store) (ops : List Op) : Nat → List Op → Except GoErr Unit
  | _, [] => .ok ()
  | idx, op :: rest =>
    if opIsTxMarker op then
      if txShapeViolation ops idx then .error (.commitFailure txShapeErrMsg)
      else txVerifyLoop st ops (idx + 1) rest
    else if op.opType == verifyReadOp then
      match doVerifyRead st op with
      | .ok _ => txVerifyLoop st ops (idx + 1) rest
      | .error e => .error e
    else if op.opType == verifyListOp then
      match doVerifyList st op with
      | .ok _ => txVerifyLoop st ops (idx + 1) rest
      | .error e => .error e
    else txVerifyLoop st ops (idx + 1) rest

/-- The write pass of `applyBatchTxOps`: applies `put` and `delete`,
ignoring the transaction markers and the verify operations. -/
def txWriteLoop : Store → List Op → Except GoErr Store
  | st, [] => .ok st
  | st, op :: rest =>
    if opIsTxMarker op then txWriteLoop st rest
    else if op.opType == putOp then
      match boltPut st op.key op.value with
      | .ok st2 => txWriteLoop st2 rest
      | .error e => .error e
    else if op.opType == deleteOp then
      match boltDelete st op.key with
      | .ok st2 => txWriteLoop st2 rest
      | .error e => .error e
    else txWriteLoop st rest

/-- `applyBatchTxOps`: verify first (against the pre-transaction bucket),
then apply the writes.  An error during verification leaves the bucket
untouched; an uncaught write error aborts the enclosing bolt transaction,
so no partial state survives it. -/
def applyBatchTxOps (st : Store) (cmd : LogData) : Except GoErr Store :=
  match txVerifyLoop st cmd.operations 0 cmd.operations with
  | .error e => .error e
  | .ok _ => txWriteLoop st cmd.operations

/-- The loop body of `applyBatchNonTxOps`: `put` and `delete` are applied
directly and abort on error; `restoreCallbackOp` only spawns a callback
goroutine; unknown operation types are logged once and skipped. -/
def nonTxLoop : Store → List Op → Except GoErr Store
  | st, [] => .ok st
  | st, op :: rest =>
    if op.opType == putOp then
      match boltPut st op.key op.value with
      | .ok st2 => nonTxLoop st2 rest
      | .error e => .error e
    else if op.opType == deleteOp then
      match boltDelete st op.key with
      | .ok st2 => nonTxLoop st2 rest
      | .error e => .error e
    else nonTxLoop st rest

/-- `applyBatchNonTxOps`. -/
def applyBatchNonTxOps (st : Store) (cmd : LogData) : Except GoErr Store :=
  nonTxLoop st cmd.operations

structure FSMEntry where
  key : Key
  value : Val
deriving DecidableEq

/-- The sentinel key marking a transaction-failure response entry. -/
def fsmEntryTxErrorKey : Key := ("[\ttransaction-commit-failure\t]").toList

/-- One `*LogData` step of the `ApplyBatch` command loop: dispatch to the
non-transactional or transactional path, and convert a caught
`ErrTransactionCommitFailure` from the transactional path into the sentinel
response entry (leaving the bucket unchanged); any other error escapes and
fails the whole bolt update. -/
def applyLogDataStep (st : Store) (cmd : LogData) : Except GoErr (Store × List FSMEntry) :=
  if cmd.operations.length = 0 || !(headOpType cmd.operations == beginTxOp) then
    match applyBatchNonTxOps st cmd with
    | .ok st2 => .ok (st2, [])
    | .error e => .error e
  else
    match applyBatchTxOps st cmd with
    | .ok st2 => .ok (st2, [])
    | .error e =>
      if e.isCommitFailure then .ok (st, [⟨fsmEntryTxErrorKey, e.errorString⟩])
      else .error e

/-- FSM-internal metadata keys of the `config` bucket. -/
def latestIndexKey : Key := ("latest_indexes").toList
def latestConfigKey : Key := ("latest_config").toList
def localNodeConfigKey : Key := ("local_node_config").toList

inductive Command where
  | data (d : LogData)
  | config (c : Val)
deriving DecidableEq

/-- A Raft log entry as delivered to `ApplyBatch`.  For a `LogCommand`
entry, `command` is the result of `proto.Unmarshal` (`none` models an
unmarshalling failure); for a `LogConfiguration` entry `configBytes` is the
marshalled configuration value. -/
structure RaftLog where
  logType : Nat
  index : Nat
  term : Nat
  command : Option LogData
  configBytes : Val
deriving DecidableEq

/-- The first pass of `ApplyBatch`: unmarshal every log before taking any
lock.  A failed unmarshal or an unexpected log type panics. -/
def unmarshalLogs : List RaftLog → Except (List Char) (List Command)
  | [] => .ok []
  | l :: rest =>
    if l.logType == logCommand then
      match l.command with
      | some d =>
        match unmarshalLogs rest with
        | .ok cs => .ok (.data d :: cs)
        | .error m => .error m
      | none => .error (("error proto unmarshaling log data").toList)
    else if l.logType == logConfiguration then
      match unmarshalLogs rest with
      | .ok cs => .ok (.config l.configBytes :: cs)
      | .error m => .error m
    else .error (("got unexpected log type").toList)

/-- The command loop inside the single bolt update of `ApplyBatch`,
threading the data bucket and the config bucket and collecting one response
entry slice per command.  An escaping error fails the whole update. -/
def applyCommands : Store → Store → List Command → Except GoErr (Store × Store × List (List FSMEntry))
  | st, cfg, [] => .ok (st, cfg, [])
  | st, cfg, .data d :: rest =>
    match applyLogDataStep st d with
    | .ok (st2, slice) =>
      match applyCommands st2 cfg rest with
      | .ok (a, b, slices) => .ok (a, b, slice :: slices)
      | .error e => .error e
    | .error e => .error e
  | st, cfg, .config c :: rest =>
    match boltPut cfg latestConfigKey c with
    | .ok cfg2 =>
      match applyCommands st cfg2 rest with
      | .ok (a, b, slices) => .ok (a, b, [] :: slices)
      | .error e => .error e
    | .error e => .error e

structure FSMApplyResponse where
  success : Bool
  entrySlice : List FSMEntry
deriving DecidableEq

/-- The observable outcome of `ApplyBatch`: either a process panic or the
final buckets together with the per-log responses. -/
inductive BatchResult where
  | panicked (msg : List Char)
  | applied (dataB : Store) (cfgB : Store) (resps : List FSMApplyResponse)
deriving DecidableEq

def BatchResult.isPanicked : BatchResult → Bool
  | .panicked _ => true
  | .applied _ _ _ => false

/-- The marshalled `IndexValue` written under `latest_indexes` (contents
opaque to the claims; kept injective). -/
def encodeIndexValue (term index : Nat) : Val :=
  (toString term).toList ++ ':' :: (toString index).toList

def lastLogIndex (logs : List RaftLog) : Nat := ((logs.getLast?).map RaftLog.index).getD 0
def lastLogTerm (logs : List RaftLog) : Nat := ((logs.getLast?).map RaftLog.term).getD 0

/-- `FSM.ApplyBatch`: unmarshal all logs (panicking on unknown types or
undecodable data), apply all commands in one bolt update (panicking if the
update fails), then advance `latest_indexes` when the batch carries a
higher index, and finally build one `Success: true` response per log. -/
def ApplyBatch (latestIndex : Nat) (st cfg : Store) (logs : List RaftLog) : BatchResult :=
  if logs.length = 0 then .applied st cfg []
  else
    match unmarshalLogs logs with
    | .error m => .panicked m
    | .ok cmds =>
      match applyCommands st cfg cmds with
      | .error _ => .panicked (("failed to store data").toList)
      | .ok (st2, cfg2, slices) =>
        let cfg3 :=
          if latestIndex < lastLogIndex logs then
            storePut cfg2 latestIndexKey (encodeIndexValue (lastLogTerm logs) (lastLogIndex logs))
          else cfg2
        .applied st2 cfg3 (slices.map (fun s => ⟨true, s⟩))

def isExceptError : Except GoErr Unit → Bool
  | .error _ => true
  | .ok _ => false

/-- Does this operation, interpreted against the given pre-transaction
bucket, fail its verification? -/
def opVerifyFails (st : Store) (op : Op) : Bool :=
  (op.opType == verifyReadOp && isExceptError (doVerifyRead st op)) ||
    (op.opType == verifyListOp && isExceptError (doVerifyList st op))

/-- Transaction well-formedness as the specification words it: when the
first operation is `begin_tx`, the last must be `commit_tx` and no interior
operation may be a transaction marker. -/
def txWellFormed (ops : List Op) : Bool :=
  (headOpType ops == beginTxOp) && (lastOpType ops == commitTxOp) &&
    ((ops.drop 1).dropLast.all (fun op => !(opIsTxMarker op)))

/-! ## `FSM.Restore` (snapshot install, physical/raft/fsm.go) -/

/-- The two buckets of the FSM bolt file. -/
structure FSMState where
  dataB : Store
  configB : Store
deriving DecidableEq

/-- `FSM.localNodeConfig`: the node-local suffrage record in the config
bucket (its protobuf contents are opaque here). -/
def localNodeConfig (cfg : Store) : Option Val := storeGet cfg localNodeConfigKey

/-- `FSM.persistDesiredSuffrage`. -/
def persistDesiredSuffrage (cfg : Store) (v : Val) : Store :=
  storePut cfg localNodeConfigKey v

/-- `FSM.Restore` on its success path (`noopRestore` disabled, installer
recognised, install and reopen succeed): cache the local node config, close
the database, atomically rename the installer file over the database path,
reopen the now-installed snapshot contents, and persist the cached local
node config into them. -/
def Restore (fsm snapshot : FSMState) : FSMState :=
  match localNodeConfig fsm.configB with
  | some v => { dataB := snapshot.dataB, configB := persistDesiredSuffrage snapshot.configB v }
  | none => snapshot

/-! ## Standby request handling (http/handler.go) -/

/-- The deterministic part of the core state consulted by
`handleRequestForwarding` / `respondStandby`: the outcome of
`core.Leader()` (an `ErrHANotEnabled` error, another error, or a leader
flag plus advertised leader address), whether `core.ForwardRequest`
succeeds, and whether the request path is on `alwaysRedirectPaths`. -/
structure HandlerCore where
  haNotEnabled : Bool
  leaderOtherErr : Bool
  isLeader : Bool
  leaderAddr : List Char
  forwardWorks : Bool
  alwaysRedirect : Bool
deriving DecidableEq

/-- The request attributes the forwarding code inspects: URL path and raw
query, and the values of the internal and the public
no-request-forwarding headers. -/
structure HttpRequest where
  path : List Char
  rawQuery : List Char
  intNoForward : List Char
  noForward : List Char
deriving DecidableEq

/-- How the wrapped handler chain disposes of the request. -/
inductive HandlerResult where
  | served
  | forwarded
  | redirect (status : Nat) (location : List Char)
  | errorResp (status : Nat)
deriving DecidableEq

/-- Split `scheme://rest` at the first `"://"`, as `url.Parse` does for the
well-formed absolute URLs used as advertised leader addresses. -/
def splitSchemeSep : List Char → Option (List Char × List Char)
  | ':' :: '/' :: '/' :: rest => some ([], rest)
  | c :: rest =>
    match splitSchemeSep rest with
    | some (a, b) => some (c :: a, b)
    | none => none
  | [] => none

/-- `respondStandby`: resolve the leader; an `ErrHANotEnabled` error or an
empty leader address yields 503, another error 500; otherwise respond 307
with a Location assembled from the leader address scheme and host (scheme
defaulting to https) plus the original request path and query. -/
def respondStandby (core : HandlerCore) (req : HttpRequest) : HandlerResult :=
  if core.haNotEnabled then .errorResp 503
  else if core.leaderOtherErr then .errorResp 500
  else if core.leaderAddr = [] then .errorResp 503
  else
    let parsed := splitSchemeSep core.leaderAddr
    let sc := ((parsed.map Prod.fst).getD [])
    let host := ((parsed.map Prod.snd).getD [])
    let scheme := if sc = [] then ("https").toList else sc
    .redirect 307
      (scheme ++ ("://").toList ++ host ++ req.path ++
        (if req.rawQuery = [] then [] else '?' :: req.rawQuery))

/-- `forwardRequest`: requests carrying the internal or the public
no-forwarding header, or aimed at an always-redirect path, are redirected
via `respondStandby`; otherwise the request is forwarded to the active
node, falling back to `respondStandby` when forwarding is unavailable. -/
def forwardRequest (core : HandlerCore) (req : HttpRequest) : HandlerResult :=
  if !(req.intNoForward = [] : Bool) then respondStandby core req
  else if !(req.noForward = [] : Bool) then respondStandby core req
  else if core.alwaysRedirect then respondStandby core req
  else if core.forwardWorks then .forwarded
  else respondStandby core req

/-- `handleRequestForwarding`: serve locally when HA is disabled or this
node is the leader; answer 500 when `core.Leader()` errs or no leader
address is known; otherwise hand off to `forwardRequest`. -/
def handleRequestForwarding (core : HandlerCore) (req : HttpRequest) : HandlerResult :=
  if core.haNotEnabled then .served
  else if core.leaderOtherErr then .errorResp 500
  else if core.isLeader then .served
  else if core.leaderAddr = [] then .errorResp 500
  else forwardRequest core req

/-! ## Core initialization (vault core, src/unnamed/part_004)

The many collaborator calls of `initializeInternal` are modelled as an
oracle `ok : Nat → Bool` of step outcomes (numbered in source order) plus an
environment of configuration predicates.  Only the barrier seal state is
tracked: `barrier.Unseal` clears it, `barrier.Seal` sets it.  The barrier
itself is not among the provided sources; per the specification its
`seal()` operation unconditionally reseals (sealing an already-sealed
barrier is a no-op) and a failed `unseal` leaves the barrier sealed. -/

structure InitEnv where
  storedKeysGeneric : Bool
  storedKeysShamirRoot : Bool
  recoveryKeySupported : Bool
  recoveryConfigMissing : Bool
  recoverySecretShares : Nat
  haEnabled : Bool
  raftBackend : Bool
  alreadyInit : Bool
  barrierTypeShamir : Bool
  rootPGPKey : Bool
  inSealMigration : Bool
  storedKeysCount : Nat

/-- The barrier state tracked across initialization. -/
structure CoreSt where
  sealed : Bool
deriving DecidableEq

/-- The tail of `initializeInternal` after `barrier.Unseal` succeeded:
persist the barrier config, store or return the generated shares, run
cluster setup and post-unseal, persist the recovery configuration and key,
generate the root token, create the raft TLS keyring and tear down with
`preSeal`.  None of these touch the barrier seal flag; every failure
returns early (through the deferred `barrier.Seal()`, applied by the
caller). -/
def initPostUnseal (env : InitEnv) (ok : Nat → Bool) (st : CoreSt) : Bool × CoreSt :=
  if !(ok 13) then (false, st)
  else if env.storedKeysShamirRoot && !(ok 14) then (false, st)
  else if env.storedKeysShamirRoot && !(ok 15) then (false, st)
  else if env.storedKeysShamirRoot && !(ok 16) then (false, st)
  else if env.storedKeysGeneric && !(ok 17) then (false, st)
  else if !(ok 18) then (false, st)
  else if !(ok 19) then (false, st)
  else if env.recoveryKeySupported && !(ok 20) then (false, st)
  else if env.recoveryKeySupported && decide (0 < env.recoverySecretShares) && !(ok 21) then (false, st)
  else if env.recoveryKeySupported && decide (0 < env.recoverySecretShares) && !(ok 22) then (false, st)
  else if !(ok 23) then (false, st)
  else if env.rootPGPKey && !(ok 24) then (false, st)
  else if env.raftBackend && !(ok 25) then (false, st)
  else if !(ok 26) then (false, st)
  else (true, st)

/-- `initializeInternal`: config validation, double-init checks, raft
bootstrap, the optional HA init lock, seal init and share generation all
happen with the barrier sealed; then the barrier is initialized and
unsealed, and a deferred `barrier.Seal()` — registered immediately after
the successful unseal — reseals it on every later return path, success or
error. -/
def initializeInternal (env : InitEnv) (ok : Nat → Bool) (st : CoreSt) : Bool × CoreSt :=
  if !(ok 0) then (false, st)
  else if env.recoveryKeySupported && env.recoveryConfigMissing then (false, st)
  else if env.recoveryKeySupported && !(ok 1) then (false, st)
  else if !(ok 2) then (false, st)
  else if env.alreadyInit then (false, st)
  else if env.raftBackend && !(ok 3) then (false, st)
  else if env.haEnabled && !(ok 4) then (false, st)
  else if env.haEnabled && !(ok 5) then (false, st)
  else if env.haEnabled && !(ok 6) then (false, st)
  else if env.haEnabled && !(ok 7) then (false, st)
  else if !(ok 8) then (false, st)
  else if !(ok 9) then (false, st)
  else if env.barrierTypeShamir && !(ok 10) then (false, st)
  else if !(ok 11) then (false, st)
  else if !(ok 12) then (false, st)
  else
    let r := initPostUnseal env ok { st with sealed := false }
    (r.1, { r.2 with sealed := true })

/-- `UnsealWithStoredKeys`: a no-op for Shamir seals, during seal
migration, or when already unsealed; otherwise fetch the stored keys
(errors and a key count other than one are non-fatal no-ops) and unseal.
`unsealInternal` is not among the provided sources; modelled from the spec:
on success it decrypts the keyring and leaves the barrier unsealed. -/
def unsealWithStoredKeys (env : InitEnv) (ok : Nat → Bool) (st : CoreSt) : CoreSt :=
  if env.barrierTypeShamir then st
  else if env.inSealMigration then st
  else if !(st.sealed) then st
  else if !(ok 27) then st
  else if !(env.storedKeysCount == 1) then st
  else if ok 28 then { st with sealed := false } else st

/-- `Initialize`: run `initializeInternal`; on success, when the seal
supports recovery keys, read the recovery configuration (errors
discarded), and when it defines zero recovery shares, immediately
auto-unseal with the stored keys so the node can be used without a
restart. -/
def initializeCore (env : InitEnv) (ok : Nat → Bool) (st : CoreSt) : Bool × CoreSt :=
  let r := initializeInternal env ok st
  if !(r.1) then r
  else if env.recoveryKeySupported then
    if !(ok 29) then r
    else if env.recoverySecretShares == 0 then (true, unsealWithStoredKeys env ok r.2)
    else r
  else r

/-! ## Concrete instances used by witnesses and counterexamples -/

/-- A bucket whose only key equals the listing prefix. -/
def cStoreEq : Store := [(("p/").toList, ("v").toList)]
def cPre : Key := ("p/").toList

/-- A one-entry bucket. -/
def cStoreA : Store := [(("a").toList, ("v").toList)]

/-- A small sorted bucket under prefix `p/` with a folder. -/
def wStore : Store :=
  [(("p/a").toList, ("1").toList),
   (("p/b/x").toList, ("2").toList),
   (("p/b/y").toList, ("3").toList),
   (("p/c").toList, ("4").toList)]

/-- Helpers to build log entries. -/
def mkOp (t : Nat) (k v : String) : Op := ⟨t, k.toList, v.toList⟩

def cmdLog (i t : Nat) (d : LogData) : RaftLog :=
  { logType := logCommand, index := i, term := t, command := some d, configBytes := [] }

/-- A transactional command whose `verify_read` fails against `cStoreA`
(the stored value of `a` is `"v"`, the expected value `"w"`). -/
def txFailCmd : LogData :=
  ⟨[mkOp beginTxOp "" "", mkOp verifyReadOp "a" "w", mkOp putOp "a" "z", mkOp commitTxOp "" ""]⟩

/-- A plain non-transactional put of `b`. -/
def putBCmd : LogData := ⟨[mkOp putOp "b" "4"]⟩

/-- A malformed transaction: begins but never commits. -/
def txBadCmd : LogData := ⟨[mkOp beginTxOp "" "", mkOp putOp "a" "z"]⟩

/-- A plain non-transactional put of `c`. -/
def putCCmd : LogData := ⟨[mkOp putOp "c" "5"]⟩

/-- A non-transactional command whose first operation writes the empty key
(rejected by bolt with `ErrKeyRequired` from any bucket state). -/
def putEmptyKeyCmd : LogData := ⟨[mkOp putOp "" "x"]⟩

/-- A log entry of an unexpected raft type. -/
def badTypeLog : RaftLog :=
  { logType := 2, index := 1, term := 1, command := none, configBytes := [] }

/-- A `LogCommand` entry whose data does not unmarshal. -/
def badDataLog : RaftLog :=
  { logType := logCommand, index := 1, term := 1, command := none, configBytes := [] }

/-- A command containing an unknown operation type. -/
def unknownOpCmd : LogData := ⟨[mkOp 1024 "k" "v", mkOp putOp "k" "v"]⟩

/-- The bucket after applying the first batch entry of the C1 witness. -/
def wSt1 : Store := [(("a").toList, ("v").toList), (("b").toList, ("4").toList)]

/-- The bucket after the whole C1 witness batch (the failed transaction
contributes nothing). -/
def wStR : Store :=
  [(("a").toList, ("v").toList), (("b").toList, ("4").toList), (("c").toList, ("5").toList)]

/-- Handler state: no leader known. -/
def coreNoLeader : HandlerCore :=
  { haNotEnabled := false, leaderOtherErr := false, isLeader := false,
    leaderAddr := [], forwardWorks := true, alwaysRedirect := false }

/-- Handler state: standby that knows the leader address. -/
def coreStandby : HandlerCore :=
  { haNotEnabled := false, leaderOtherErr := false, isLeader := false,
    leaderAddr := ("https://active.example:8200").toList, forwardWorks := true,
    alwaysRedirect := false }

/-- A request with the public no-forwarding header set. -/
def reqNoFwd : HttpRequest :=
  { path := ("/v1/secret/data/k").toList, rawQuery := ("list=true").toList,
    intNoForward := [], noForward := ("true").toList }

/-- Environment of an auto-unseal (non-Shamir) seal with recovery support
and zero recovery shares. -/
def envAutoUnseal : InitEnv :=
  { storedKeysGeneric := true, storedKeysShamirRoot := false,
    recoveryKeySupported := true, recoveryConfigMissing := false,
    recoverySecretShares := 0, haEnabled := false, raftBackend := false,
    alreadyInit := false, barrierTypeShamir := false, rootPGPKey := false,
    inSealMigration := false, storedKeysCount := 1 }

/-- The all-steps-succeed oracle. -/
def okAll : Nat → Bool := fun _ => true

/-! # Theorems

Sanity checks of the `filepath.Clean` / `filepath.Join` model. -/

example : goClean (("p//x/../y").toList) = ("p/y").toList := by decide
example : goClean (("/..").toList) = ("/").toList := by decide
example : goClean (("a/b/./c//").toList) = ("a/b/c").toList := by decide
example : goClean (("../x").toList) = ("../x").toList := by decide
example : goClean (("a/../../b").toList) = ("../b").toList := by decide
example : goJoin (("p/").toList) (("sub/").toList) = ("p/sub").toList := by decide
example : goJoin [] (("x").toList) = ("x").toList := by decide
example : goJoin (("p/").toList) ((".").toList) = ("p").toList := by decide

example : listPageInner wStore (("p/").toList) [] (-1)
    = [("a").toList, ("b/").toList, ("c").toList] := by decide
example : listPageInner wStore (("p/").toList) (("a").toList) 2
    = [("b/").toList, ("c").toList] := by decide
example : listPageInner cStoreEq cPre [] 1 = [[]] := by decide

/-! ## Byte-wise comparison kit -/

theorem goLt_irrefl : ∀ s : Key, goLt s s = false
  | [] => rfl
  | c :: cs => by simp [goLt, goLt_irrefl cs]

theorem goLt_trans : ∀ {a b c : Key}, goLt a b = true → goLt b c = true → goLt a c = true := by
  intro a
  induction a with
  | nil =>
    intro b c hab hbc
    cases b with
    | nil => exact absurd hab (by simp [goLt])
    | cons y ys =>
      cases c with
      | nil => exact absurd hbc (by simp [goLt])
      | cons z zs => simp [goLt]
  | cons x xs ih =>
    intro b c hab hbc
    cases b with
    | nil => exact absurd hab (by simp [goLt])
    | cons y ys =>
      cases c with
      | nil => exact absurd hbc (by simp [goLt])
      | cons z zs =>
        simp [goLt] at hab hbc ⊢
        rcases hab with hxy | ⟨hxy, hxys⟩
        · rcases hbc with hyz | ⟨hyz, hyzs⟩
          · exact Or.inl (lt_trans hxy hyz)
          · exact Or.inl (hyz ▸ hxy)
        · rcases hbc with hyz | ⟨hyz, hyzs⟩
          · exact Or.inl (hxy ▸ hyz)
          · exact Or.inr ⟨hxy.trans hyz, ih hxys hyzs⟩

theorem goLt_total : ∀ {a b : Key}, goLt a b = false → b = a ∨ goLt b a = true := by
  intro a
  induction a with
  | nil =>
    intro b h
    cases b with
    | nil => exact Or.inl rfl
    | cons y ys => exact absurd h (by simp [goLt])
  | cons x xs ih =>
    intro b h
    cases b with
    | nil => exact Or.inr (by simp [goLt])
    | cons y ys =>
      rcases lt_trichotomy x y with hlt | heq | hgt
      · exfalso
        have h4 : goLt (x :: xs) (y :: ys) = true := by simp [goLt, hlt]
        rw [h] at h4
        exact absurd h4 (by simp)
      · subst heq
        have h2 : goLt xs ys = false := by
          by_contra hc
          have h3 : goLt xs ys = true := by
            cases hx : goLt xs ys
            · exact absurd hx hc
            · rfl
          have h4 : goLt (x :: xs) (x :: ys) = true := by simp [goLt, h3]
          rw [h] at h4
          exact absurd h4 (by simp)
        rcases ih h2 with h3 | h3
        · exact Or.inl (by rw [h3])
        · exact Or.inr (by simp [goLt, h3])
      · exact Or.inr (by simp [goLt, hgt])

theorem goLt_asymm {a b : Key} (h : goLt a b = true) : goLt b a = false := by
  by_contra hc
  have h2 : goLt b a = true := by
    cases hb : goLt b a
    · exact absurd hb hc
    · rfl
  have := goLt_trans h h2
  rw [goLt_irrefl] at this
  exact absurd this (by simp)

theorem goLe_refl (a : Key) : goLe a a = true := by simp [goLe, goLt_irrefl]

theorem goLe_of_lt {a b : Key} (h : goLt a b = true) : goLe a b = true := by
  simp [goLe, goLt_asymm h]

theorem goLe_iff {a b : Key} : goLe a b = true ↔ (a = b ∨ goLt a b = true) := by
  constructor
  · intro h
    have h2 : goLt b a = false := by
      revert h
      simp [goLe]
    exact goLt_total h2
  · intro h
    rcases h with h | h
    · exact h ▸ goLe_refl a
    · exact goLe_of_lt h

theorem goLt_of_le_of_lt {a b c : Key} (h1 : goLe a b = true) (h2 : goLt b c = true) :
    goLt a c = true := by
  rcases goLe_iff.1 h1 with h | h
  · exact h ▸ h2
  · exact goLt_trans h h2

theorem goLt_of_lt_of_le {a b c : Key} (h1 : goLt a b = true) (h2 : goLe b c = true) :
    goLt a c = true := by
  rcases goLe_iff.1 h2 with h | h
  · exact h ▸ h1
  · exact goLt_trans h1 h

theorem goLe_trans {a b c : Key} (h1 : goLe a b = true) (h2 : goLe b c = true) :
    goLe a c = true := by
  rcases goLe_iff.1 h1 with h | h
  · exact h ▸ h2
  · exact goLe_of_lt (goLt_of_lt_of_le h h2)

theorem goLe_antisymm {a b : Key} (h1 : goLe a b = true) (h2 : goLe b a = true) : a = b := by
  rcases goLe_iff.1 h1 with h | h
  · exact h
  · simp [goLe, h] at h2

theorem isPfx_refl : ∀ p : Key, isPfx p p = true
  | [] => rfl
  | c :: cs => by simp [isPfx, isPfx_refl cs]

theorem goLe_of_isPfx : ∀ {p s : Key}, isPfx p s = true → goLe p s = true := by
  intro p
  induction p with
  | nil =>
    intro s _
    cases s <;> simp [goLe, goLt]
  | cons a as ih =>
    intro s h
    cases s with
    | nil => exact absurd h (by simp [isPfx])
    | cons b bs =>
      simp [isPfx] at h
      obtain ⟨rfl, h2⟩ := h
      have := ih h2
      simp [goLe, goLt] at this ⊢
      exact this

theorem isPfx_append_drop : ∀ {p s : Key}, isPfx p s = true → s = p ++ s.drop p.length := by
  intro p
  induction p with
  | nil => intro s _; simp
  | cons a as ih =>
    intro s h
    cases s with
    | nil => exact absurd h (by simp [isPfx])
    | cons b bs =>
      simp [isPfx] at h
      obtain ⟨rfl, h2⟩ := h
      simpa using ih h2

theorem goLt_append_iff : ∀ (p a b : Key), goLt (p ++ a) (p ++ b) = goLt a b := by
  intro p
  induction p with
  | nil => intro a b; simp
  | cons c cs ih => intro a b; simp [goLt, ih]

theorem goLe_append_iff (p a b : Key) : goLe (p ++ a) (p ++ b) = goLe a b := by
  simp [goLe, goLt_append_iff]

/-- A string above `pre` that does not carry `pre` as a prefix is above
every string that does. -/
theorem goLt_of_gt_pre : ∀ {pre k x : Key}, isPfx pre k = false → goLt pre k = true →
    isPfx pre x = true → goLt x k = true := by
  intro pre
  induction pre with
  | nil => intro k x h; simp [isPfx] at h
  | cons a as ih =>
    intro k x hk hlt hx
    cases k with
    | nil => simp [goLt] at hlt
    | cons b bs =>
      cases x with
      | nil => exact absurd hx (by simp [isPfx])
      | cons c cs =>
        simp [isPfx] at hx
        obtain ⟨rfl, hx2⟩ := hx
        simp [goLt] at hlt ⊢
        simp [isPfx] at hk
        rcases hlt with hab | ⟨rfl, h2⟩
        · exact Or.inl hab
        · exact Or.inr ⟨rfl, ih (hk rfl) h2 hx2⟩

/-! ## Collapse and sortedness facts -/

theorem goLt_nil_right : ∀ x : Key, goLt x [] = false
  | [] => rfl
  | _ :: _ => rfl

theorem goLe_nil_left (x : Key) : goLe [] x = true := by
  simp [goLe, goLt_nil_right]

theorem goLe_cons (c : Char) (x y : Key) : goLe (c :: x) (c :: y) = goLe x y := by
  simp [goLe, goLt]

theorem collapseName_no_slash : ∀ {s : Key}, containsSlash s = false → collapseName s = s := by
  intro s
  induction s with
  | nil => intro _; rfl
  | cons c cs ih =>
    intro h
    simp [containsSlash] at h
    obtain ⟨h1, h2⟩ := h
    have h3 : containsSlash cs = false := by
      simp [containsSlash]
      exact h2
    simp [collapseName, h1, ih h3]

theorem containsSlash_collapse : ∀ s : Key, containsSlash (collapseName s) = containsSlash s := by
  intro s
  induction s with
  | nil => rfl
  | cons c cs ih =>
    by_cases h : c = '/'
    · subst h; simp [collapseName, containsSlash]
    · have ih2 := ih
      simp [containsSlash] at ih2
      simp [collapseName, h, containsSlash, ih2]

theorem collapse_isPfx : ∀ s : Key, isPfx (collapseName s) s = true := by
  intro s
  induction s with
  | nil => rfl
  | cons c cs ih =>
    by_cases h : c = '/'
    · subst h; simp [collapseName, isPfx]
    · simp [collapseName, h, isPfx, ih]

theorem collapse_eq_nil : ∀ {s : Key}, collapseName s = [] → s = [] := by
  intro s h
  cases s with
  | nil => rfl
  | cons c cs =>
    by_cases hc : c = '/'
    · subst hc; simp [collapseName] at h
    · simp [collapseName, hc] at h

theorem collapse_mono : ∀ {s t : Key}, goLt s t = true →
    goLe (collapseName s) (collapseName t) = true := by
  intro s
  induction s with
  | nil => intro t _; exact goLe_nil_left _
  | cons a as ih =>
    intro t h
    cases t with
    | nil => simp [goLt] at h
    | cons b bs =>
      simp [goLt] at h
      by_cases ha : a = '/'
      · subst ha
        by_cases hb : b = '/'
        · subst hb
          simp only [collapseName, if_pos rfl]
          exact goLe_refl _
        · have h1 : '/' < b := by
            rcases h with h1 | ⟨h1, _⟩
            · exact h1
            · exact absurd h1.symm hb
          have e1 : collapseName ('/' :: as) = ['/'] := by simp [collapseName]
          have e2 : collapseName (b :: bs) = b :: collapseName bs := by simp [collapseName, hb]
          rw [e1, e2]
          exact goLe_of_lt (by simp [goLt, h1])
      · by_cases hb : b = '/'
        · subst hb
          have h1 : a < '/' := by
            rcases h with h1 | ⟨h1, _⟩
            · exact h1
            · exact absurd h1 ha
          have e1 : collapseName (a :: as) = a :: collapseName as := by simp [collapseName, ha]
          have e2 : collapseName ('/' :: bs) = ['/'] := by simp [collapseName]
          rw [e1, e2]
          exact goLe_of_lt (by simp [goLt, h1])
        · have e1 : collapseName (a :: as) = a :: collapseName as := by simp [collapseName, ha]
          have e2 : collapseName (b :: bs) = b :: collapseName bs := by simp [collapseName, hb]
          rw [e1, e2]
          rcases h with h1 | ⟨h1, h2⟩
          · exact goLe_of_lt (by simp [goLt, h1])
          · subst h1
            rw [goLe_cons]
            exact ih h2

theorem sortedB_tail : ∀ {kv : Key × Val} {st : Store}, sortedB (kv :: st) = true →
    sortedB st = true := by
  intro kv st h
  cases st with
  | nil => rfl
  | cons b t => simp [sortedB] at h; exact h.2

theorem sortedB_head_lt : ∀ {kv : Key × Val} {st : Store}, sortedB (kv :: st) = true →
    ∀ x ∈ st, goLt kv.1 x.1 = true := by
  intro kv st
  induction st generalizing kv with
  | nil => intro _ x hx; simp at hx
  | cons b t ih =>
    intro h x hx
    have h1 : goLt kv.1 b.1 = true := by simp [sortedB] at h; exact h.1
    have h2 : sortedB (b :: t) = true := by simp [sortedB] at h; exact h.2
    rcases List.mem_cons.1 hx with rfl | hx2
    · exact h1
    · exact goLt_trans h1 (ih h2 x hx2)

theorem pairwise_of_sortedB : ∀ {st : Store}, sortedB st = true →
    st.Pairwise (fun x y => goLt x.1 y.1 = true) := by
  intro st
  induction st with
  | nil => intro _; exact List.Pairwise.nil
  | cons kv t ih =>
    intro h
    exact List.Pairwise.cons (sortedB_head_lt h) (ih (sortedB_tail h))

theorem sortedKeys_tail : ∀ {k : Key} {l : List Key}, sortedKeysB (k :: l) = true →
    sortedKeysB l = true := by
  intro k l h
  cases l with
  | nil => rfl
  | cons b t => simp [sortedKeysB] at h; exact h.2

theorem sortedKeys_head_lt : ∀ {k : Key} {l : List Key}, sortedKeysB (k :: l) = true →
    ∀ x ∈ l, goLt k x = true := by
  intro k l
  induction l generalizing k with
  | nil => intro _ x hx; simp at hx
  | cons b t ih =>
    intro h x hx
    have h1 : goLt k b = true := by simp [sortedKeysB] at h; exact h.1
    have h2 : sortedKeysB (b :: t) = true := by simp [sortedKeysB] at h; exact h.2
    rcases List.mem_cons.1 hx with rfl | hx2
    · exact h1
    · exact goLt_trans h1 (ih h2 x hx2)

theorem pairwise_of_sortedKeys : ∀ {l : List Key}, sortedKeysB l = true →
    l.Pairwise (fun x y => goLt x y = true) := by
  intro l
  induction l with
  | nil => intro _; exact List.Pairwise.nil
  | cons k t ih =>
    intro h
    exact List.Pairwise.cons (sortedKeys_head_lt h) (ih (sortedKeys_tail h))

theorem sortedKeys_of_pairwise : ∀ {l : List Key},
    l.Pairwise (fun x y => goLt x y = true) → sortedKeysB l = true := by
  intro l
  induction l with
  | nil => intro _; rfl
  | cons k t ih =>
    intro h
    cases t with
    | nil => rfl
    | cons b t2 =>
      rcases List.pairwise_cons.1 h with ⟨hhead, htail⟩
      simp [sortedKeysB]
      exact ⟨hhead b (by simp), by simpa [sortedKeysB] using ih htail⟩

/-! ## From the cursor loop to the name stream -/

theorem sortedB_of_pairwise : ∀ {st : Store},
    st.Pairwise (fun x y => goLt x.1 y.1 = true) → sortedB st = true := by
  intro st
  induction st with
  | nil => intro _; rfl
  | cons kv t ih =>
    intro h
    cases t with
    | nil => rfl
    | cons b t2 =>
      rcases List.pairwise_cons.1 h with ⟨hhead, htail⟩
      simp [sortedB]
      exact ⟨hhead b (by simp), by simpa [sortedB] using ih htail⟩

theorem sortedB_filter {st : Store} (p : Key × Val → Bool) (h : sortedB st = true) :
    sortedB (st.filter p) = true :=
  sortedB_of_pairwise ((pairwise_of_sortedB h).sublist (List.filter_sublist st))

/-- The cursor loop over entries equals the name loop over the collapsed
names of the longest prefix-carrying head segment. -/
theorem listLoop_eq_nameLoop : ∀ (ks : Store) (pre a : Key) (limit : Int) (acc : List Key),
    listLoop pre a limit ks acc
      = nameLoop a limit
          ((ks.takeWhile (fun kv => isPfx pre kv.1)).map (fun kv => nameOf pre kv.1)) acc := by
  intro ks
  induction ks with
  | nil => intro pre a limit acc; simp [listLoop, nameLoop]
  | cons kv rest ih =>
    intro pre a limit acc
    obtain ⟨k, v⟩ := kv
    by_cases hp : isPfx pre k = true
    · have e : List.takeWhile (fun kv => isPfx pre kv.1) ((k, v) :: rest)
          = (k, v) :: List.takeWhile (fun kv => isPfx pre kv.1) rest := by
        simp [List.takeWhile_cons, hp]
      rw [e, List.map_cons]
      by_cases hl : 0 < limit ∧ limit ≤ (acc.length : Int)
      · simp [listLoop, nameLoop, hp, hl]
      · by_cases hcs : containsSlash (goTrimPfx pre k) = true
        · have hcs2 : containsSlash (collapseName (goTrimPfx pre k)) = true := by
            rw [containsSlash_collapse]
            exact hcs
          by_cases hd : acc.head? = some (collapseName (goTrimPfx pre k))
          · simp [listLoop, nameLoop, hp, hl, hcs, hcs2, nameOf, hd, ih]
          · by_cases hf : (!(a = [] : Bool) && goLe (collapseName (goTrimPfx pre k)) a) = true
            · simp [listLoop, nameLoop, hp, hl, hcs, hcs2, nameOf, hd, hf, ih]
            · simp [listLoop, nameLoop, hp, hl, hcs, hcs2, nameOf, hd, hf, ih]
        · have hname : collapseName (goTrimPfx pre k) = goTrimPfx pre k :=
            collapseName_no_slash (by simpa using hcs)
          have hcs2 : containsSlash (collapseName (goTrimPfx pre k)) = false := by
            rw [hname]
            simpa using hcs
          by_cases hf : (!(a = [] : Bool) && goLe (goTrimPfx pre k) a) = true
          · simp [listLoop, nameLoop, hp, hl, hcs, hcs2, nameOf, hname, hf, ih]
          · simp [listLoop, nameLoop, hp, hl, hcs, hcs2, nameOf, hname, hf, ih]
    · have e : List.takeWhile (fun kv => isPfx pre kv.1) ((k, v) :: rest) = [] := by
        simp [List.takeWhile_cons]
        simpa using hp
      rw [e]
      simp [listLoop, nameLoop, hp]

/-- On a sorted bucket, the cursor seek keeps exactly the entries at or
above the seek point. -/
theorem seekFrom_eq_filter : ∀ {st : Store} {sp : Key}, sortedB st = true →
    seekFrom st sp = st.filter (fun kv => !(goLt kv.1 sp)) := by
  intro st
  induction st with
  | nil => intro sp _; rfl
  | cons kv rest ih =>
    intro sp h
    by_cases hlt : goLt kv.1 sp = true
    · simp [seekFrom, List.dropWhile, hlt]
      rw [← seekFrom]
      exact ih (sortedB_tail h)
    · have hge : goLe sp kv.1 = true := by
        simp [goLe]
        simpa using hlt
      have hrest : rest.filter (fun kv => !(goLt kv.1 sp)) = rest := by
        rw [List.filter_eq_self]
        intro x hx
        have h1 : goLt kv.1 x.1 = true := sortedB_head_lt h x hx
        have h2 : goLt sp x.1 = true := goLt_of_le_of_lt hge h1
        simp [goLt_asymm h2]
      simp [seekFrom, List.dropWhile, hlt, hrest]

/-- On a sorted run of entries at or above a seek point that itself carries
the listing prefix, the loop break on the first non-prefix key is the same
as filtering for the prefix. -/
theorem takeWhile_eq_filter_pfx : ∀ {st2 : Store} {sp pre : Key}, sortedB st2 = true →
    (∀ kv ∈ st2, goLt kv.1 sp = false) → isPfx pre sp = true →
    st2.takeWhile (fun kv => isPfx pre kv.1) = st2.filter (fun kv => isPfx pre kv.1) := by
  intro st2
  induction st2 with
  | nil => intro sp pre _ _ _; rfl
  | cons kv rest ih =>
    intro sp pre h hge hpsp
    by_cases hp : isPfx pre kv.1 = true
    · simp [List.takeWhile_cons, hp]
      exact ih (sortedB_tail h) (fun x hx => hge x (by simp [hx])) hpsp
    · have hnil : rest.filter (fun kv => isPfx pre kv.1) = [] := by
        rw [List.filter_eq_nil_iff]
        intro x hx
        intro hxp
        have h1 : goLe pre kv.1 = true := by
          have hs : goLe pre sp = true := goLe_of_isPfx hpsp
          have hk : goLe sp kv.1 = true := by
            simp [goLe]
            simpa using hge kv (by simp)
          exact goLe_trans hs hk
        have h2 : goLt pre kv.1 = true := by
          rcases goLe_iff.1 h1 with h3 | h3
          · exfalso
            rw [← h3] at hp
            exact hp (isPfx_refl pre)
          · exact h3
        have h3 : goLt x.1 kv.1 = true := goLt_of_gt_pre (by simpa using hp) h2 hxp
        have h4 : goLt kv.1 x.1 = true := sortedB_head_lt h x hx
        rw [goLt_asymm h4] at h3
        exact absurd h3 (by simp)
      simp [List.takeWhile_cons, hp, hnil]

/-- If the seek point does not overshoot `pre ++ after`, every
prefix-carrying key strictly below it contributes a name at or below
`after`. -/
theorem name_low_of_lt_seek {pre a k : Key} (hseek : seekOKB pre a = true)
    (hp : isPfx pre k = true) (hlt : goLt k (seekPfx pre a) = true) :
    goLt a (nameOf pre k) = false := by
  by_contra hc
  have han : goLt a (nameOf pre k) = true := by
    cases hx : goLt a (nameOf pre k)
    · exact absurd hx hc
    · rfl
  set s : Key := k.drop pre.length with hsdef
  have hs : k = pre ++ s := isPfx_append_drop hp
  have htrim : goTrimPfx pre k = s := by simp [goTrimPfx, hp, hsdef]
  have hns : goLe (nameOf pre k) s = true := by
    rw [nameOf, htrim]
    exact goLe_of_isPfx (collapse_isPfx _)
  have has : goLt a s = true := goLt_of_lt_of_le han hns
  have hak : goLt (pre ++ a) k = true := by
    rw [hs, goLt_append_iff]
    exact has
  have hsk : goLt (seekPfx pre a) k = true := goLt_of_le_of_lt hseek hak
  rw [goLt_asymm hsk] at hlt
  exact absurd hlt (by simp)

/-! ## The name loop versus the specification pipeline -/

theorem filterAfter_nil (a : Key) : filterAfter a [] = [] := by
  unfold filterAfter
  split <;> simp

theorem filterAfter_cons_keep {a n : Key} {rest : List Key} (h : a = [] ∨ goLt a n = true) :
    filterAfter a (n :: rest) = n :: filterAfter a rest := by
  rcases h with h | h
  · subst h; simp [filterAfter]
  · by_cases ha : a = []
    · subst ha; simp [filterAfter]
    · simp [filterAfter, ha, h]

theorem filterAfter_cons_drop {a n : Key} {rest : List Key} (ha : ¬a = [])
    (h : goLe n a = true) : filterAfter a (n :: rest) = filterAfter a rest := by
  have h2 : goLt a n = false := by
    revert h
    simp [goLe]
  simp [filterAfter, ha, h2]

theorem takeLimSub_nil (limit : Int) (c : Nat) : takeLimSub limit c [] = [] := by
  simp [takeLimSub]

theorem takeLimSub_stop {limit : Int} {c : Nat} (h1 : 0 < limit) (h2 : limit ≤ (c : Int))
    (X : List Key) : takeLimSub limit c X = [] := by
  have h3 : limit.toNat - c = 0 := by omega
  simp [takeLimSub, h1, h3]

theorem takeLimSub_cons {limit : Int} {c : Nat} (h : ¬(0 < limit ∧ limit ≤ (c : Int)))
    (n : Key) (X : List Key) :
    takeLimSub limit c (n :: X) = n :: takeLimSub limit (c + 1) X := by
  by_cases hp : 0 < limit
  · have h2 : ¬limit ≤ (c : Int) := fun hc => h ⟨hp, hc⟩
    have h3 : limit.toNat - c = (limit.toNat - (c + 1)) + 1 := by omega
    simp [takeLimSub, hp, h3]
  · simp [takeLimSub, hp]

/-- The name loop computes the specification pipeline: filter the names
above `after`, suppress consecutive duplicates (relative to the last
already-emitted name), truncate to the remaining allowance, and append to
what was already emitted.  Duplicate adjacent names must be folder names
(the loop deduplicates only those), and the emitted head must precede the
stream and have passed the `after` filter. -/
theorem nameLoop_eq : ∀ (ns : List Key) (a : Key) (limit : Int) (acc : List Key),
    ns.Pairwise (fun n m => goLe n m = true ∧ (n = m → containsSlash m = true)) →
    (∀ h2 : Key, acc.head? = some h2 →
      (∀ n ∈ ns, goLe h2 n = true ∧ (h2 = n → containsSlash n = true)) ∧
        (a = [] ∨ goLt a h2 = true)) →
    nameLoop a limit ns acc
      = acc.reverse ++ takeLimSub limit acc.length (destutterFrom acc.head? (filterAfter a ns)) := by
  intro ns
  induction ns with
  | nil =>
    intro a limit acc _ _
    simp [nameLoop, filterAfter_nil, destutterFrom, takeLimSub_nil]
  | cons n rest ih =>
    intro a limit acc hpw hacc
    have hpwrest : rest.Pairwise (fun n m => goLe n m = true ∧ (n = m → containsSlash m = true)) :=
      (List.pairwise_cons.1 hpw).2
    have hhead : ∀ m ∈ rest, goLe n m = true ∧ (n = m → containsSlash m = true) :=
      (List.pairwise_cons.1 hpw).1
    by_cases hl : 0 < limit ∧ limit ≤ (acc.length : Int)
    · have hstop := takeLimSub_stop hl.1 hl.2
        (destutterFrom acc.head? (filterAfter a (n :: rest)))
      simp [nameLoop, hl, hstop]
    · by_cases hf : (!(a = [] : Bool) && goLe n a) = true
      · -- the `after` filter skips this name
        have hf2 : ¬a = [] ∧ goLe n a = true := by simpa using hf
        have ha : ¬a = [] := hf2.1
        have hle : goLe n a = true := hf2.2
        have hdrop := @filterAfter_cons_drop a n rest ha hle
        have heq : nameLoop a limit (n :: rest) acc = nameLoop a limit rest acc := by
          by_cases hcs : containsSlash n = true
          · by_cases hd : acc.head? = some n
            · simp [nameLoop, hl, hcs, hd]
            · simp [nameLoop, hl, hcs, hd, hf]
          · simp [nameLoop, hl, hcs, hf]
        rw [heq, hdrop]
        exact ih a limit acc hpwrest
          (fun h2 hh2 => ⟨fun m hm => (hacc h2 hh2).1 m (by simp [hm]), (hacc h2 hh2).2⟩)
      · -- the name passes the `after` filter
        have hkeep : a = [] ∨ goLt a n = true := by
          by_cases ha : a = []
          · exact Or.inl ha
          · right
            have h2 : ¬goLe n a = true := by
              intro hc
              exact hf (by simp [hc, ha])
            cases hx : goLt a n
            · exfalso
              rcases goLt_total hx with h3 | h3
              · exact h2 (h3 ▸ goLe_refl n)
              · exact h2 (goLe_of_lt h3)
            · rfl
        have hfa := @filterAfter_cons_keep a n rest hkeep
        by_cases hd : acc.head? = some n
        · -- deduplicated folder repeat: drop it on both sides
          have hcs : containsSlash n = true := by
            rcases hacc n hd with ⟨h1, _⟩
            exact (h1 n (by simp)).2 rfl
          have heq : nameLoop a limit (n :: rest) acc = nameLoop a limit rest acc := by
            simp [nameLoop, hl, hcs, hd]
          rw [heq, hfa]
          have hdest : destutterFrom acc.head? (n :: filterAfter a rest)
              = destutterFrom acc.head? (filterAfter a rest) := by
            rw [hd]
            simp [destutterFrom]
          rw [hdest]
          exact ih a limit acc hpwrest
            (fun h2 hh2 => ⟨fun m hm => (hacc h2 hh2).1 m (by simp [hm]), (hacc h2 hh2).2⟩)
        · -- freshly emitted name
          have heq : nameLoop a limit (n :: rest) acc = nameLoop a limit rest (n :: acc) := by
            by_cases hcs : containsSlash n = true
            · simp [nameLoop, hl, hcs, hd, hf]
            · simp [nameLoop, hl, hcs, hf]
          rw [heq, hfa]
          have hdest : destutterFrom acc.head? (n :: filterAfter a rest)
              = n :: destutterFrom (some n) (filterAfter a rest) := by
            simp [destutterFrom, hd]
          rw [hdest, takeLimSub_cons hl]
          have hrec := ih a limit (n :: acc) hpwrest
            (fun h2 hh2 => by
              have h3 : n = h2 := by
                simpa using hh2
              subst h3
              exact ⟨hhead, hkeep⟩)
          rw [hrec]
          simp [List.reverse_cons]

theorem pairwise_imp_mem {α : Type} {R S : α → α → Prop} : ∀ {l : List α},
    (∀ x ∈ l, ∀ y ∈ l, R x y → S x y) → l.Pairwise R → l.Pairwise S := by
  intro l
  induction l with
  | nil => intro _ _; exact List.Pairwise.nil
  | cons x t ih =>
    intro himp hpw
    rcases List.pairwise_cons.1 hpw with ⟨h1, h2⟩
    exact List.Pairwise.cons
      (fun y hy => himp x (by simp) y (by simp [hy]) (h1 y hy))
      (ih (fun p hp q hq => himp p (by simp [hp]) q (by simp [hq])) h2)

/-- Keys in bucket order yield weakly increasing names, and a repeated name
can only be a folder name. -/
theorem nameOf_rel {pre k1 k2 : Key} (h1 : isPfx pre k1 = true) (h2 : isPfx pre k2 = true)
    (hlt : goLt k1 k2 = true) :
    goLe (nameOf pre k1) (nameOf pre k2) = true ∧
      (nameOf pre k1 = nameOf pre k2 → containsSlash (nameOf pre k2) = true) := by
  have ht1 : goTrimPfx pre k1 = k1.drop pre.length := by simp [goTrimPfx, h1]
  have ht2 : goTrimPfx pre k2 = k2.drop pre.length := by simp [goTrimPfx, h2]
  have he1 : k1 = pre ++ k1.drop pre.length := isPfx_append_drop h1
  have he2 : k2 = pre ++ k2.drop pre.length := isPfx_append_drop h2
  have hslt : goLt (goTrimPfx pre k1) (goTrimPfx pre k2) = true := by
    rw [ht1, ht2]
    have h3 := hlt
    rw [he1, he2, goLt_append_iff] at h3
    exact h3
  constructor
  · rw [nameOf, nameOf]
    exact collapse_mono hslt
  · intro heq
    cases hcs : containsSlash (nameOf pre k2)
    · exfalso
      have hs2 : containsSlash (goTrimPfx pre k2) = false := by
        rw [nameOf, containsSlash_collapse] at hcs
        exact hcs
      have hn2 : nameOf pre k2 = goTrimPfx pre k2 := by
        rw [nameOf]
        exact collapseName_no_slash hs2
      have hs1 : containsSlash (goTrimPfx pre k1) = false := by
        have h4 : containsSlash (nameOf pre k1) = false := by rw [heq, hcs]
        rw [nameOf, containsSlash_collapse] at h4
        exact h4
      have hn1 : nameOf pre k1 = goTrimPfx pre k1 := by
        rw [nameOf]
        exact collapseName_no_slash hs1
      have h5 : goTrimPfx pre k1 = goTrimPfx pre k2 := by
        rw [← hn1, ← hn2, heq]
      rw [h5, goLt_irrefl] at hslt
      exact absurd hslt (by simp)
    · rfl

/-- The names of any sorted selection of prefix-carrying keys are pairwise
weakly increasing with folder-only repeats. -/
theorem names_pairwise {st : Store} {pre : Key} (p : Key × Val → Bool)
    (hsort : sortedB st = true) (hq : ∀ kv ∈ st, p kv = true → isPfx pre kv.1 = true) :
    ((st.filter p).map (fun kv => nameOf pre kv.1)).Pairwise
      (fun n m => goLe n m = true ∧ (n = m → containsSlash m = true)) := by
  rw [List.pairwise_map]
  have h1 : (st.filter p).Pairwise (fun x y => goLt x.1 y.1 = true) :=
    (pairwise_of_sortedB hsort).sublist (List.filter_sublist st)
  exact pairwise_imp_mem
    (fun x hx y hy hxy =>
      nameOf_rel (hq x (List.mem_of_mem_filter hx) (List.of_mem_filter hx))
        (hq y (List.mem_of_mem_filter hy) (List.of_mem_filter hy)) hxy)
    h1

theorem isPfx_seekPfx (pre a : Key) : isPfx pre (seekPfx pre a) = true := by
  unfold seekPfx
  by_cases ha : a = []
  · simp [ha, isPfx_refl]
  · rw [if_neg ha]
    by_cases hj : isPfx pre (goJoin pre a) = true
    · simp [hj]
    · simp [hj, isPfx_refl]

theorem filter_filter_store (p q : Key × Val → Bool) : ∀ st : Store,
    (st.filter q).filter p = st.filter (fun kv => q kv && p kv) := by
  intro st
  induction st with
  | nil => rfl
  | cons kv rest ih =>
    by_cases hq : q kv = true
    · by_cases hp : p kv = true
      · simp [List.filter_cons, hq, hp, ih]
      · simp [List.filter_cons, hq, hp, ih]
    · simp [List.filter_cons, hq, ih]

theorem allListNames_cons (kv : Key × Val) (rest : Store) (pre : Key) :
    allListNames (kv :: rest) pre
      = if isPfx pre kv.1 = true then nameOf pre kv.1 :: allListNames rest pre
        else allListNames rest pre := by
  simp only [allListNames, matchKeys, List.map_cons, List.filter_cons]
  split
  · simp_all
  · simp_all

/-- Entries skipped by the cursor seek contribute no name above `after`:
filtering the names above `after` is unaffected by the seek. -/
theorem filterAfter_names_commute {pre a sp : Key}
    (hlow : ∀ kv : Key × Val, isPfx pre kv.1 = true → goLt kv.1 sp = true →
      ¬a = [] ∧ goLt a (nameOf pre kv.1) = false) :
    ∀ st : Store,
    filterAfter a
        ((st.filter (fun kv => !(goLt kv.1 sp) && isPfx pre kv.1)).map (fun kv => nameOf pre kv.1))
      = filterAfter a (allListNames st pre) := by
  intro st
  induction st with
  | nil => rfl
  | cons kv rest ih =>
    rw [allListNames_cons]
    by_cases hp : isPfx pre kv.1 = true
    · by_cases hlt : goLt kv.1 sp = true
      · have hcomb : (!(goLt kv.1 sp) && isPfx pre kv.1) = false := by simp [hlt]
        rcases hlow kv hp hlt with ⟨ha, hcut⟩
        have hle : goLe (nameOf pre kv.1) a = true := by
          simp [goLe, hcut]
        rw [List.filter_cons_of_neg (by simp [hcomb]), if_pos hp,
          filterAfter_cons_drop ha hle]
        exact ih
      · have hcomb : (!(goLt kv.1 sp) && isPfx pre kv.1) = true := by
          simp [hp]
          simpa using hlt
        rw [List.filter_cons_of_pos (by simp [hcomb]), List.map_cons, if_pos hp]
        by_cases hkeep : a = [] ∨ goLt a (nameOf pre kv.1) = true
        · rw [filterAfter_cons_keep hkeep, filterAfter_cons_keep hkeep, ih]
        · have ha : ¬a = [] := fun hc => hkeep (Or.inl hc)
          have hle : goLe (nameOf pre kv.1) a = true := by
            have h2 : goLt a (nameOf pre kv.1) = false := by
              cases hx : goLt a (nameOf pre kv.1)
              · rfl
              · exact absurd (Or.inr hx) hkeep
            simp [goLe, h2]
          rw [filterAfter_cons_drop ha hle, filterAfter_cons_drop ha hle, ih]
    · have hcomb : (!(goLt kv.1 sp) && isPfx pre kv.1) = false := by simp [hp]
      rw [List.filter_cons_of_neg (by simp [hcomb]), if_neg hp]
      exact ih

/-- Main characterization: on a sorted bucket, whenever the seek point does
not overshoot `prefix ++ after`, `listPageInner` computes exactly the
specification pipeline (with the `after` filter disabled for an empty
`after`). -/
theorem listPageInner_eq_spec {st : Store} {pre a : Key} {limit : Int}
    (hsort : sortedB st = true) (hseek : seekOKB pre a = true) :
    listPageInner st pre a limit = specPageA st pre a limit := by
  have hpfx : isPfx pre (seekPfx pre a) = true := isPfx_seekPfx pre a
  have hmem : ∀ kv ∈ st.filter (fun kv => !(goLt kv.1 (seekPfx pre a))),
      goLt kv.1 (seekPfx pre a) = false := by
    intro kv hkv
    have h2 := List.of_mem_filter hkv
    simpa using h2
  have hlow : ∀ kv : Key × Val, isPfx pre kv.1 = true →
      goLt kv.1 (seekPfx pre a) = true → ¬a = [] ∧ goLt a (nameOf pre kv.1) = false := by
    intro kv hp hlt
    by_cases ha : a = []
    · exfalso
      have h1 : seekPfx pre a = pre := by simp [seekPfx, ha]
      rw [h1] at hlt
      have h2 : goLe pre kv.1 = true := goLe_of_isPfx hp
      rw [goLe] at h2
      rw [hlt] at h2
      exact absurd h2 (by simp)
    · exact ⟨ha, name_low_of_lt_seek hseek hp hlt⟩
  rw [listPageInner, listLoop_eq_nameLoop, seekFrom_eq_filter hsort,
    takeWhile_eq_filter_pfx (sortedB_filter _ hsort) hmem hpfx,
    filter_filter_store]
  rw [nameLoop_eq _ a limit []
    (names_pairwise _ hsort (fun kv _ hcomb => by
      rcases Bool.and_eq_true (!(goLt kv.1 (seekPfx pre a))) (isPfx pre kv.1) ▸ hcomb
        with ⟨_, h2⟩
      exact h2))
    (fun h2 hh2 => by simp at hh2)]
  rw [filterAfter_names_commute hlow st]
  simp [specPageA, takeLim, takeLimSub, destutterFrom]

/-! ## Pagination machinery -/

theorem seekOKB_nil (pre : Key) : seekOKB pre [] = true := by
  simp [seekOKB, seekPfx, goLe_refl]

theorem filterAfter_nil_after (ns : List Key) : filterAfter [] ns = ns := by
  simp [filterAfter]

/-- The full unpaginated list is the deduplicated name stream. -/
theorem fsmList_eq {st : Store} {pre : Key} (hsort : sortedB st = true) :
    fsmList st pre = destutterFrom none (allListNames st pre) := by
  rw [fsmList, listPageInner_eq_spec hsort (seekOKB_nil pre)]
  simp [specPageA, takeLim, filterAfter]

theorem destutterFrom_cons_eq {last? : Option Key} {n : Key} {rest : List Key}
    (h : last? = some n) : destutterFrom last? (n :: rest) = destutterFrom last? rest := by
  rw [destutterFrom, if_pos h]

theorem destutterFrom_cons_ne {last? : Option Key} {n : Key} {rest : List Key}
    (h : ¬last? = some n) : destutterFrom last? (n :: rest) = n :: destutterFrom (some n) rest := by
  rw [destutterFrom, if_neg h]

theorem destutterFrom_subset : ∀ {ns : List Key} {last? : Option Key} {x : Key},
    x ∈ destutterFrom last? ns → x ∈ ns := by
  intro ns
  induction ns with
  | nil => intro last? x h; simp [destutterFrom] at h
  | cons n rest ih =>
    intro last? x h
    by_cases hln : last? = some n
    · rw [destutterFrom_cons_eq hln] at h
      exact List.mem_cons_of_mem n (ih h)
    · rw [destutterFrom_cons_ne hln] at h
      rcases List.mem_cons.1 h with rfl | h2
      · exact List.mem_cons_self _ _
      · exact List.mem_cons_of_mem n (ih h2)

/-- Deduplicating a weakly increasing stream yields a strictly increasing
one, strictly above any already-emitted lower bound. -/
theorem destutterFrom_sorted : ∀ (ns : List Key) (last? : Option Key),
    ns.Pairwise (fun n m => goLe n m = true) →
    (∀ h, last? = some h → ∀ m ∈ ns, goLe h m = true) →
    (destutterFrom last? ns).Pairwise (fun n m => goLt n m = true) ∧
      (∀ h, last? = some h → ∀ x ∈ destutterFrom last? ns, goLt h x = true) := by
  intro ns
  induction ns with
  | nil =>
    intro last? _ _
    refine ⟨List.Pairwise.nil, ?_⟩
    intro h _ x hx
    simp [destutterFrom] at hx
  | cons n rest ih =>
    intro last? hpw hbound
    have hhead : ∀ m ∈ rest, goLe n m = true := (List.pairwise_cons.1 hpw).1
    have hrest : rest.Pairwise (fun n m => goLe n m = true) := (List.pairwise_cons.1 hpw).2
    have ihn := ih (some n) hrest (fun h hh m hm => by
      have h2 : n = h := by simpa using hh
      exact h2 ▸ hhead m hm)
    by_cases hln : last? = some n
    · rw [destutterFrom_cons_eq hln, hln]
      refine ⟨ihn.1, ?_⟩
      intro h hh x hx
      have h2 : n = h := by simpa using hh
      subst h2
      exact ihn.2 n rfl x hx
    · rw [destutterFrom_cons_ne hln]
      have hD2 : ∀ x ∈ destutterFrom (some n) rest, goLt n x = true :=
        fun x hx => ihn.2 n rfl x hx
      refine ⟨List.Pairwise.cons hD2 ihn.1, ?_⟩
      intro h hh x hx
      have hne : ¬h = n := by
        intro he
        exact hln (by rw [hh, he])
      have hle : goLe h n = true := hbound h hh n (by simp)
      have hlt : goLt h n = true := by
        rcases goLe_iff.1 hle with h3 | h3
        · exact absurd h3 hne
        · exact h3
      rcases List.mem_cons.1 hx with rfl | h4
      · exact hlt
      · exact goLt_trans hlt (hD2 x h4)

/-- Filtering commutes with deduplication on a weakly increasing stream. -/
theorem destutter_filter_comm : ∀ (ns : List Key) (p : Key → Bool) (last? : Option Key),
    ns.Pairwise (fun n m => goLe n m = true) →
    (∀ h, last? = some h → ∀ m ∈ ns, goLe h m = true) →
    destutterFrom last? (ns.filter p) = (destutterFrom last? ns).filter p := by
  intro ns
  induction ns with
  | nil => intro p last? _ _; rfl
  | cons n rest ih =>
    intro p last? hpw hbound
    have hhead : ∀ m ∈ rest, goLe n m = true := (List.pairwise_cons.1 hpw).1
    have hrest : rest.Pairwise (fun n m => goLe n m = true) := (List.pairwise_cons.1 hpw).2
    have hboundn : ∀ h, (some n : Option Key) = some h → ∀ m ∈ rest, goLe h m = true := by
      intro h hh m hm
      have h2 : n = h := by simpa using hh
      exact h2 ▸ hhead m hm
    by_cases hln : last? = some n
    · by_cases hpn : p n = true
      · rw [List.filter_cons_of_pos hpn, destutterFrom_cons_eq hln,
          destutterFrom_cons_eq hln, hln]
        exact ih p (some n) hrest hboundn
      · rw [List.filter_cons_of_neg (by simp [hpn]), destutterFrom_cons_eq hln, hln]
        exact ih p (some n) hrest hboundn
    · by_cases hpn : p n = true
      · rw [List.filter_cons_of_pos hpn, destutterFrom_cons_ne hln,
          destutterFrom_cons_ne hln, List.filter_cons_of_pos hpn]
        rw [ih p (some n) hrest hboundn]
      · rw [List.filter_cons_of_neg (by simp [hpn]), destutterFrom_cons_ne hln,
          List.filter_cons_of_neg (by simp [hpn])]
        rw [ih p last? hrest
          (fun h hh m hm => hbound h hh m (by simp [hm]))]
        cases rest with
        | nil => rfl
        | cons m r2 =>
          by_cases hmn : m = n
          · subst hmn
            rw [destutterFrom_cons_ne hln, destutterFrom_cons_eq rfl,
              List.filter_cons_of_neg (by simp [hpn])]
          · have hlm : ¬last? = some m := by
              intro he
              have h1 : goLe m n = true := hbound m he n (by simp)
              have h2 : goLe n m = true := hhead m (by simp)
              exact hmn (goLe_antisymm h1 h2)
            have hnm : ¬(some n : Option Key) = some m := by
              simpa using fun he : n = m => hmn he.symm
            rw [destutterFrom_cons_ne hlm, destutterFrom_cons_ne hnm]

/-- Filtering a strictly sorted list above one of its elements keeps
exactly the part after that element. -/
theorem filter_gt_of_decomp {u1 u2 : List Key} {x : Key}
    (hU : (u1 ++ x :: u2).Pairwise (fun n m => goLt n m = true)) :
    (u1 ++ x :: u2).filter (fun n => goLt x n) = u2 := by
  rcases List.pairwise_append.1 hU with ⟨h1, h2, h3⟩
  rw [List.filter_append]
  have e1 : u1.filter (fun n => goLt x n) = [] := by
    rw [List.filter_eq_nil_iff]
    intro y hy
    have h4 : goLt y x = true := h3 y hy x (by simp)
    simp [goLt_asymm h4]
  have e2 : (x :: u2).filter (fun n => goLt x n) = u2 := by
    rw [List.filter_cons_of_neg (by simp [goLt_irrefl])]
    rw [List.filter_eq_self]
    intro y hy
    exact (List.pairwise_cons.1 h2).1 y hy
  rw [e1, e2, List.nil_append]

theorem getLastD_mem : ∀ (l : List Key) (d : Key), ¬l = [] → l.getLastD d ∈ l
  | [], _, h => absurd rfl h
  | [x], d, _ => by simp
  | x :: y :: t, d, _ => by
    rw [List.getLastD_cons]
    exact List.mem_cons_of_mem x (getLastD_mem (y :: t) x (by simp))

theorem dropLast_append_getLastD : ∀ (l : List Key) (d : Key), ¬l = [] →
    l.dropLast ++ [l.getLastD d] = l
  | [], _, h => absurd rfl h
  | [x], d, _ => by simp
  | x :: y :: t, d, _ => by
    rw [List.getLastD_cons]
    have h2 := dropLast_append_getLastD (y :: t) x (by simp)
    have h3 := congrArg (fun l => x :: l) h2
    simpa [List.dropLast] using h3

theorem allListNames_eq (st : Store) (pre : Key) :
    allListNames st pre
      = (st.filter (fun kv => isPfx pre kv.1)).map (fun kv => nameOf pre kv.1) := by
  induction st with
  | nil => rfl
  | cons kv rest ih =>
    rw [allListNames_cons]
    by_cases hp : isPfx pre kv.1 = true
    · simp [List.filter_cons, hp, ih]
    · simp [List.filter_cons, hp, ih]

theorem allNames_pairwise_le {st : Store} {pre : Key} (hsort : sortedB st = true) :
    (allListNames st pre).Pairwise (fun n m => goLe n m = true) := by
  rw [allListNames_eq]
  exact (names_pairwise (fun kv => isPfx pre kv.1) hsort (fun kv _ h => h)).imp
    (fun h => h.1)

theorem allNames_pairwise_full {st : Store} {pre : Key} (hsort : sortedB st = true) :
    (allListNames st pre).Pairwise
      (fun n m => goLe n m = true ∧ (n = m → containsSlash m = true)) := by
  rw [allListNames_eq]
  exact names_pairwise (fun kv => isPfx pre kv.1) hsort (fun kv _ h => h)

theorem nil_not_mem_names {st : Store} {pre : Key} (h : ¬pre ∈ st.map Prod.fst) :
    ¬([] : Key) ∈ allListNames st pre := by
  intro hmem
  rw [allListNames_eq] at hmem
  rcases List.mem_map.1 hmem with ⟨kv, hkv, hname⟩
  have hp : isPfx pre kv.1 = true := by
    have h0 := List.of_mem_filter hkv
    simpa using h0
  have hmem2 : kv ∈ st := List.mem_of_mem_filter hkv
  have htrim : goTrimPfx pre kv.1 = [] := collapse_eq_nil hname
  have h3 : goTrimPfx pre kv.1 = kv.1.drop pre.length := by simp [goTrimPfx, hp]
  have he : kv.1 = pre := by
    have h2 := isPfx_append_drop hp
    rw [← h3, htrim, List.append_nil] at h2
    exact h2
  exact h (by rw [← he]; exact List.mem_map_of_mem Prod.fst hmem2)

/-- The deduplicated full listing is strictly sorted. -/
theorem fullList_pairwise {st : Store} {pre : Key} (hsort : sortedB st = true) :
    (destutterFrom none (allListNames st pre)).Pairwise (fun n m => goLt n m = true) :=
  (destutterFrom_sorted (allListNames st pre) none (allNames_pairwise_le hsort)
    (fun h hh => by simp at hh)).1

theorem next_invariant {st : Store} {pre : Key} (hsort : sortedB st = true)
    (hnopre : ¬pre ∈ st.map Prod.fst) {u1 u2 : List Key} {x : Key}
    (hU : destutterFrom none (allListNames st pre) = u1 ++ x :: u2) :
    ¬x = [] ∧ destutterFrom none (filterAfter x (allListNames st pre)) = u2 := by
  have hxU : x ∈ destutterFrom none (allListNames st pre) := by
    rw [hU]
    simp
  have hxnames : x ∈ allListNames st pre := destutterFrom_subset hxU
  have hxne : ¬x = [] := by
    intro he
    exact nil_not_mem_names hnopre (he ▸ hxnames)
  refine ⟨hxne, ?_⟩
  have hfa : filterAfter x (allListNames st pre)
      = (allListNames st pre).filter (fun n => goLt x n) := by
    simp [filterAfter, hxne]
  rw [hfa, destutter_filter_comm (allListNames st pre) (fun n => goLt x n) none
    (allNames_pairwise_le hsort) (fun h hh => by simp at hh)]
  rw [hU]
  exact filter_gt_of_decomp (hU ▸ fullList_pairwise hsort)

/-- Pagination closure, by induction on the remaining fuel: starting from
an `after` whose deduplicated filtered suffix is `u2`, the concatenation of
the successive pages is exactly `u2` and every page is sorted. -/
theorem pages_closure_aux : ∀ (fuel : Nat) (st : Store) (pre : Key) (K : Int) (a : Key)
    (u2 : List Key),
    sortedB st = true →
    ¬pre ∈ st.map Prod.fst →
    0 < K →
    (∀ n ∈ destutterFrom none (allListNames st pre), seekOKB pre n = true) →
    seekOKB pre a = true →
    (∃ u1, destutterFrom none (allListNames st pre) = u1 ++ u2) →
    destutterFrom none (filterAfter a (allListNames st pre)) = u2 →
    u2.length < fuel →
    (pagesAux st pre K fuel a).flatten = u2 ∧
      (∀ pg ∈ pagesAux st pre K fuel a, sortedKeysB pg = true) := by
  intro fuel
  induction fuel with
  | zero =>
    intro st pre K a u2 _ _ _ _ _ _ _ hlen
    exact absurd hlen (by omega)
  | succ fuel ih =>
    intro st pre K a u2 hsort hnopre hK hseekall hseek hdec hinv hlen
    have hpage : listPageInner st pre a K = takeLim K u2 := by
      rw [listPageInner_eq_spec hsort hseek, specPageA, hinv]
    cases hu2 : u2 with
    | nil =>
      subst hu2
      have hpg : listPageInner st pre a K = [] := by
        rw [hpage]
        simp [takeLim]
      simp only [pagesAux, hpg, if_pos rfl]
      exact ⟨rfl, fun pg hpg2 => by simp at hpg2⟩
    | cons x u2t =>
      subst hu2
      have hKnat : 1 ≤ K.toNat := by omega
      have hpg2 : listPageInner st pre a K = (x :: u2t).take K.toNat := by
        rw [hpage]
        simp [takeLim, hK]
      have hpgne : ¬(x :: u2t).take K.toNat = [] := by
        obtain ⟨m, hm⟩ : ∃ m, K.toNat = m + 1 := ⟨K.toNat - 1, by omega⟩
        rw [hm, List.take_succ_cons]
        simp
      have hpgdecomp : ((x :: u2t).take K.toNat).dropLast
          ++ [((x :: u2t).take K.toNat).getLastD []] = (x :: u2t).take K.toNat :=
        dropLast_append_getLastD _ [] hpgne
      have hsplit : (x :: u2t).take K.toNat ++ (x :: u2t).drop K.toNat = x :: u2t :=
        List.take_append_drop _ _
      obtain ⟨u1, hU⟩ := hdec
      have hcat : ((x :: u2t).take K.toNat).dropLast
          ++ (((x :: u2t).take K.toNat).getLastD [] :: (x :: u2t).drop K.toNat)
          = x :: u2t := by
        rw [show (((x :: u2t).take K.toNat).getLastD [] :: (x :: u2t).drop K.toNat)
            = [((x :: u2t).take K.toNat).getLastD []] ++ (x :: u2t).drop K.toNat from rfl,
          ← List.append_assoc, hpgdecomp, hsplit]
      have hU2 : destutterFrom none (allListNames st pre)
          = (u1 ++ ((x :: u2t).take K.toNat).dropLast)
            ++ ((x :: u2t).take K.toNat).getLastD [] :: (x :: u2t).drop K.toNat := by
        rw [hU]
        conv_rhs => rw [List.append_assoc, hcat]
      have hnext := next_invariant hsort hnopre hU2
      have ha2mem : ((x :: u2t).take K.toNat).getLastD []
          ∈ destutterFrom none (allListNames st pre) := by
        rw [hU2]
        simp
      have hseek2 : seekOKB pre (((x :: u2t).take K.toNat).getLastD []) = true :=
        hseekall _ ha2mem
      have hlen2 : ((x :: u2t).drop K.toNat).length < fuel := by
        have h1 : (x :: u2t).length < fuel + 1 := hlen
        have h2 : (x :: u2t).length = u2t.length + 1 := by simp
        have h3 : ((x :: u2t).drop K.toNat).length = (x :: u2t).length - K.toNat := by
          simp
        omega
      have ihr := ih st pre K (((x :: u2t).take K.toNat).getLastD [])
        ((x :: u2t).drop K.toNat) hsort hnopre hK hseekall hseek2
        ⟨u1 ++ ((x :: u2t).take K.toNat).dropLast
            ++ [((x :: u2t).take K.toNat).getLastD []],
          by rw [hU2]; simp⟩ hnext.2 hlen2
      have hunfold : pagesAux st pre K (fuel + 1) a
          = (x :: u2t).take K.toNat
            :: pagesAux st pre K fuel (((x :: u2t).take K.toNat).getLastD []) := by
        simp only [pagesAux, hpg2]
        rw [if_neg hpgne]
      rw [hunfold]
      constructor
      · simp only [List.flatten_cons]
        rw [ihr.1, hsplit]
      · intro pg2 hpg2m
        rcases List.mem_cons.1 hpg2m with rfl | h4
        · have hu2pw : (x :: u2t).Pairwise (fun n m => goLt n m = true) := by
            have h5 := @fullList_pairwise st pre hsort
            rw [hU] at h5
            exact (List.pairwise_append.1 h5).2.1
          exact sortedKeys_of_pairwise (hu2pw.sublist (List.take_sublist _ _))
        · exact ihr.2 pg2 h4

/-! ## Claims C2, C3, C4 -/

theorem listLoop_nonpos : ∀ (ks : Store) (pre a : Key) (limit : Int) (acc : List Key),
    limit ≤ 0 → listLoop pre a limit ks acc = listLoop pre a (-1) ks acc := by
  intro ks
  induction ks with
  | nil => intro pre a limit acc _; rfl
  | cons kv rest ih =>
    intro pre a limit acc h1
    obtain ⟨k, v⟩ := kv
    have e1 : ¬(0 < limit ∧ limit ≤ (acc.length : Int)) := fun hc => by omega
    have e2 : ¬(0 < (-1 : Int) ∧ (-1 : Int) ≤ (acc.length : Int)) := fun hc => by omega
    by_cases hp : isPfx pre k = true
    · by_cases hcs : containsSlash (goTrimPfx pre k) = true
      · by_cases hd : acc.head? = some (collapseName (goTrimPfx pre k))
        · simp only [listLoop, hp, Bool.not_true, Bool.false_eq_true, if_false,
            if_neg e1, if_neg e2, if_pos hcs, if_pos hd]
          exact ih pre a limit acc h1
        · by_cases hf : (!(a = [] : Bool) && goLe (collapseName (goTrimPfx pre k)) a) = true
          · simp only [listLoop, hp, Bool.not_true, Bool.false_eq_true, if_false,
              if_neg e1, if_neg e2, if_pos hcs, if_neg hd, if_pos hf]
            exact ih pre a limit acc h1
          · simp only [listLoop, hp, Bool.not_true, Bool.false_eq_true, if_false,
              if_neg e1, if_neg e2, if_pos hcs, if_neg hd, if_neg hf]
            exact ih pre a limit _ h1
      · by_cases hf : (!(a = [] : Bool) && goLe (goTrimPfx pre k) a) = true
        · simp only [listLoop, hp, Bool.not_true, Bool.false_eq_true, if_false,
            if_neg e1, if_neg e2, if_neg hcs, if_pos hf]
          exact ih pre a limit acc h1
        · simp only [listLoop, hp, Bool.not_true, Bool.false_eq_true, if_false,
            if_neg e1, if_neg e2, if_neg hcs, if_neg hf]
          exact ih pre a limit _ h1
    · simp [listLoop, hp]

/-- C2 counterexample: with an empty `after` and a key equal to the listing
prefix, `listPageInner` returns the empty name, which is not strictly
greater than `after` — the code never applies the strictness filter when
`after` is empty, so the claimed "exactly the names strictly greater than
after" fails. -/
theorem c2_counterexample :
    listPageInner cStoreEq cPre [] 1 ≠ specPageClaim cStoreEq cPre [] 1 ∧
    listPageInner cStoreEq cPre [] 1 = [[]] ∧
    specPageClaim cStoreEq cPre [] 1 = [] := by decide

/-- C2 (amended): on a sorted bucket, provided the cursor seek point (which
is `filepath.Join(prefix, after)` with a fallback to `prefix`, not the
plain concatenation the claim states) does not overshoot
`prefix ++ after`, `listPageInner` with a positive limit returns exactly
the collapsed result names with the prefix — strictly greater than `after`
when `after` is non-empty, unfiltered when `after` is empty — with
consecutive duplicate folder names suppressed and truncated to `limit`. -/
theorem c2_listPage_exact (st : Store) (pre a : Key) (limit : Int)
    (hsort : sortedB st = true) (hseek : seekOKB pre a = true) (_hlim : 0 < limit) :
    listPageInner st pre a limit = specPageA st pre a limit :=
  listPageInner_eq_spec hsort hseek

theorem c2_listPage_exact_witness :
    (sortedB wStore = true ∧ seekOKB (("p/").toList) (("a").toList) = true ∧ (0 : Int) < 2) ∧
      listPageInner wStore (("p/").toList) (("a").toList) 2
        = specPageA wStore (("p/").toList) (("a").toList) 2 :=
  ⟨⟨by decide, by decide, by decide⟩,
   c2_listPage_exact wStore (("p/").toList) (("a").toList) 2 (by decide) (by decide)
     (by decide)⟩

/-- C3 counterexample: `ListPage` with `limit = 0` does not return an empty
list — the truncation guard is `limit > 0`, so a zero limit disables
truncation and every matching entry is returned. -/
theorem c3_counterexample :
    listPageInner cStoreA [] [] 0 ≠ [] ∧
    listPageInner cStoreA [] [] 0 = [("a").toList] := by decide

/-- C3 (amended): every non-positive limit (including `0` and `-1`)
behaves identically and disables truncation, and the untruncated result is
the full deduplicated filtered name stream (on a sorted bucket with a
non-overshooting seek); `limit = 0` therefore returns all matching
entries, not an empty list. -/
theorem c3_limit_nonpositive (st : Store) (pre a : Key) :
    (∀ limit : Int, limit ≤ 0 → listPageInner st pre a limit = listPageInner st pre a (-1)) ∧
    (sortedB st = true → seekOKB pre a = true →
      listPageInner st pre a (-1)
        = destutterFrom none (filterAfter a (allListNames st pre))) := by
  constructor
  · intro limit hlim
    unfold listPageInner
    exact listLoop_nonpos _ pre a limit [] hlim
  · intro hsort hseek
    rw [listPageInner_eq_spec hsort hseek]
    simp [specPageA, takeLim]

theorem c3_limit_nonpositive_witness :
    ((0 : Int) ≤ 0 ∧ sortedB wStore = true ∧ seekOKB (("p/").toList) [] = true) ∧
    listPageInner wStore (("p/").toList) [] 0 = listPageInner wStore (("p/").toList) [] (-1) ∧
    listPageInner wStore (("p/").toList) [] (-1)
      = destutterFrom none (filterAfter [] (allListNames wStore (("p/").toList))) :=
  ⟨⟨by decide, by decide, by decide⟩,
   (c3_limit_nonpositive wStore (("p/").toList) []).1 0 (by decide),
   (c3_limit_nonpositive wStore (("p/").toList) []).2 (by decide) (by decide)⟩

/-- C4 counterexample: when the bucket contains a key equal to the prefix,
the first page is the lone empty name, the recorded `after` for the next
round is that empty name, and the next page is identical and non-empty:
the process never reaches an empty page and the concatenation repeats
entries instead of equalling the full list. -/
theorem c4_counterexample :
    pagesAux cStoreEq cPre 1 2 [] = [[[]], [[]]] ∧
    fsmList cStoreEq cPre = [[]] := by decide

/-- C4 (amended): on a sorted bucket with no key equal to the prefix, and
with every returned name having a non-overshooting seek point, repeated
`ListPage` calls with page size `K > 0` and `after` set to the last entry
of the previous page terminate and concatenate exactly to the full
unpaginated list, which is strictly ascending (hence without duplicates or
gaps), and every page is strictly ascending. -/
theorem c4_pagination_closure (st : Store) (pre : Key) (K : Int) (fuel : Nat)
    (hsort : sortedB st = true)
    (hnopre : ¬pre ∈ st.map Prod.fst)
    (hK : 0 < K)
    (hseekall : ∀ n ∈ fsmList st pre, seekOKB pre n = true)
    (hfuel : (fsmList st pre).length < fuel) :
    (pagesAux st pre K fuel []).flatten = fsmList st pre ∧
    sortedKeysB (fsmList st pre) = true ∧
    (∀ pg ∈ pagesAux st pre K fuel [], sortedKeysB pg = true) := by
  have hU := @fsmList_eq st pre hsort
  have hmain := pages_closure_aux fuel st pre K [] (fsmList st pre) hsort hnopre hK
    (fun n hn => hseekall n (by rw [hU]; exact hn))
    (seekOKB_nil pre)
    ⟨[], by rw [← hU]; simp⟩
    (by rw [filterAfter_nil_after, ← hU])
    hfuel
  refine ⟨hmain.1, ?_, hmain.2⟩
  exact sortedKeys_of_pairwise (hU ▸ fullList_pairwise hsort)

theorem c4_pagination_closure_witness :
    (sortedB wStore = true ∧ ¬(("p/").toList) ∈ wStore.map Prod.fst ∧ (0 : Int) < 2 ∧
      (∀ n ∈ fsmList wStore (("p/").toList), seekOKB (("p/").toList) n = true) ∧
      (fsmList wStore (("p/").toList)).length < 4) ∧
    (pagesAux wStore (("p/").toList) 2 4 []).flatten = fsmList wStore (("p/").toList) ∧
    sortedKeysB (fsmList wStore (("p/").toList)) = true ∧
    (∀ pg ∈ pagesAux wStore (("p/").toList) 2 4 [], sortedKeysB pg = true) :=
  ⟨⟨by decide, by decide, by decide, by decide, by decide⟩,
   c4_pagination_closure wStore (("p/").toList) 2 4 (by decide) (by decide) (by decide)
     (by decide) (by decide)⟩

/-! ## Claims C1, C5, C7, C10: log application -/

theorem drop_cons_head : ∀ (ops : List Op) (idx : Nat) (op : Op) (r2 : List Op),
    ops.drop idx = op :: r2 → ops[idx]? = some op := by
  intro ops
  induction ops with
  | nil => intro idx op r2 h; simp at h
  | cons a t ih =>
    intro idx op r2 h
    cases idx with
    | zero => simp at h; simp [h.1]
    | succ m =>
      simp only [List.drop_succ_cons] at h
      simpa using ih m op r2 h

theorem drop_cons_tail : ∀ (ops : List Op) (idx : Nat) (op : Op) (r2 : List Op),
    ops.drop idx = op :: r2 → ops.drop (idx + 1) = r2 := by
  intro ops
  induction ops with
  | nil => intro idx op r2 h; simp at h
  | cons a t ih =>
    intro idx op r2 h
    cases idx with
    | zero => simp at h; simp [h.2]
    | succ m =>
      simp only [List.drop_succ_cons] at h
      simpa using ih m op r2 h

theorem get_some_lt : ∀ (l : List Op) (j : Nat) (op : Op), l[j]? = some op → j < l.length := by
  intro l
  induction l with
  | nil => intro j op h; simp at h
  | cons a t ih =>
    intro j op h
    cases j with
    | zero => simp
    | succ m =>
      simp only [List.getElem?_cons_succ] at h
      have := ih m op h
      simp
      omega

theorem drop_nil_le : ∀ (l : List Op) (n : Nat), l.drop n = [] → l.length ≤ n := by
  intro l
  induction l with
  | nil => intro n _; simp
  | cons a t ih =>
    intro n h
    cases n with
    | zero => simp at h
    | succ m =>
      simp only [List.drop_succ_cons] at h
      have := ih m h
      simp
      omega

theorem mem_dropLast_index : ∀ (t : List Op) (op : Op), op ∈ t.dropLast →
    ∃ j, t[j]? = some op ∧ j + 1 < t.length := by
  intro t
  induction t with
  | nil => intro op h; simp at h
  | cons x t2 ih =>
    intro op h
    cases t2 with
    | nil => simp at h
    | cons y t3 =>
      rw [List.dropLast_cons₂] at h
      rcases List.mem_cons.1 h with rfl | h2
      · exact ⟨0, by simp, by simp⟩
      · obtain ⟨j, hj, hlen⟩ := ih op h2
        exact ⟨j + 1, by simpa using hj, by simpa using Nat.succ_lt_succ hlen⟩

theorem mem_interior_index : ∀ (l : List Op) (op : Op), op ∈ (l.drop 1).dropLast →
    ∃ j, l[j]? = some op ∧ 1 ≤ j ∧ j + 1 < l.length := by
  intro l op h
  cases l with
  | nil => simp at h
  | cons a t =>
    simp only [List.drop_succ_cons, List.drop_zero] at h
    obtain ⟨j, hj, hlen⟩ := mem_dropLast_index t op h
    exact ⟨j + 1, by simpa using hj, by omega, by simpa using Nat.succ_lt_succ hlen⟩

theorem doVerifyRead_err_commit {st : Store} {op : Op} {e : GoErr}
    (h : doVerifyRead st op = .error e) : e.isCommitFailure = true := by
  unfold doVerifyRead at h
  split at h
  · exact absurd h (by simp)
  · injection h with h2
    rw [← h2]
    rfl

theorem doVerifyList_err_commit {st : Store} {op : Op} {e : GoErr}
    (h : doVerifyList st op = .error e) : e.isCommitFailure = true := by
  unfold doVerifyList at h
  split at h
  · exact absurd h (by simp)
  · injection h with h2
    rw [← h2]
    rfl

/-- Every error produced by the transaction verification pass wraps
`ErrTransactionCommitFailure`. -/
theorem txVerifyLoop_err_commit : ∀ {r : List Op} {idx : Nat} {st : Store} {ops : List Op}
    {e : GoErr}, txVerifyLoop st ops idx r = .error e → e.isCommitFailure = true := by
  intro r
  induction r with
  | nil => intro idx st ops e h; simp [txVerifyLoop] at h
  | cons op r2 ih =>
    intro idx st ops e h
    by_cases hm : opIsTxMarker op = true
    · by_cases hv : txShapeViolation ops idx = true
      · simp [txVerifyLoop, hm, hv] at h
        rw [← h]
        rfl
      · simp only [txVerifyLoop, if_pos hm, if_neg hv] at h
        exact ih h
    · by_cases hr : (op.opType == verifyReadOp) = true
      · cases hd : doVerifyRead st op with
        | error e2 =>
          simp only [txVerifyLoop, if_neg hm, if_pos hr, hd] at h
          injection h with h2
          exact h2 ▸ doVerifyRead_err_commit hd
        | ok u =>
          simp only [txVerifyLoop, if_neg hm, if_pos hr, hd] at h
          exact ih h
      · by_cases hl2 : (op.opType == verifyListOp) = true
        · cases hd : doVerifyList st op with
          | error e2 =>
            simp only [txVerifyLoop, if_neg hm, if_neg hr, if_pos hl2, hd] at h
            injection h with h2
            exact h2 ▸ doVerifyList_err_commit hd
          | ok u =>
            simp only [txVerifyLoop, if_neg hm, if_neg hr, if_pos hl2, hd] at h
            exact ih h
        · simp only [txVerifyLoop, if_neg hm, if_neg hr, if_neg hl2] at h
          exact ih h

theorem marker_not_verifyFails {st : Store} {op : Op} (hm : opIsTxMarker op = true) :
    opVerifyFails st op = false := by
  have h2 : op.opType = beginTxOp ∨ op.opType = commitTxOp := by
    simp [opIsTxMarker] at hm
    rcases hm with h | h
    · exact Or.inl h
    · exact Or.inr h
  rcases h2 with h | h <;> simp [opVerifyFails, h, verifyReadOp, verifyListOp,
    beginTxOp, commitTxOp]

/-- A failing verify operation anywhere in the remaining operations makes
the verification pass fail. -/
theorem txVerifyLoop_err_of_verify : ∀ (r : List Op) (idx : Nat) (st : Store) (ops : List Op),
    (∃ op ∈ r, opVerifyFails st op = true) →
    ∃ e, txVerifyLoop st ops idx r = .error e := by
  intro r
  induction r with
  | nil => intro idx st ops h; simp at h
  | cons op r2 ih =>
    intro idx st ops hex
    by_cases hm : opIsTxMarker op = true
    · by_cases hv : txShapeViolation ops idx = true
      · exact ⟨.commitFailure txShapeErrMsg, by simp [txVerifyLoop, hm, hv]⟩
      · have hex2 : ∃ op2 ∈ r2, opVerifyFails st op2 = true := by
          rcases hex with ⟨op2, hmem, hfail⟩
          rcases List.mem_cons.1 hmem with rfl | h2
          · rw [marker_not_verifyFails hm] at hfail
            exact absurd hfail (by simp)
          · exact ⟨op2, h2, hfail⟩
        obtain ⟨e, he⟩ := ih (idx + 1) st ops hex2
        exact ⟨e, by simp only [txVerifyLoop, if_pos hm, if_neg hv]; exact he⟩
    · by_cases hr : (op.opType == verifyReadOp) = true
      · cases hd : doVerifyRead st op with
        | error e2 => exact ⟨e2, by simp only [txVerifyLoop, if_neg hm, if_pos hr, hd]⟩
        | ok u =>
          have hex2 : ∃ op2 ∈ r2, opVerifyFails st op2 = true := by
            rcases hex with ⟨op2, hmem, hfail⟩
            rcases List.mem_cons.1 hmem with rfl | h2
            · exfalso
              have h3 : op2.opType = verifyReadOp := by simpa using hr
              simp [opVerifyFails, h3, isExceptError, hd, verifyReadOp, verifyListOp] at hfail
            · exact ⟨op2, h2, hfail⟩
          obtain ⟨e, he⟩ := ih (idx + 1) st ops hex2
          exact ⟨e, by simp only [txVerifyLoop, if_neg hm, if_pos hr, hd]; exact he⟩
      · by_cases hl2 : (op.opType == verifyListOp) = true
        · cases hd : doVerifyList st op with
          | error e2 =>
            exact ⟨e2, by simp only [txVerifyLoop, if_neg hm, if_neg hr, if_pos hl2, hd]⟩
          | ok u =>
            have hex2 : ∃ op2 ∈ r2, opVerifyFails st op2 = true := by
              rcases hex with ⟨op2, hmem, hfail⟩
              rcases List.mem_cons.1 hmem with rfl | h2
              · exfalso
                simp [opVerifyFails, hr, hl2, isExceptError, hd] at hfail
              · exact ⟨op2, h2, hfail⟩
            obtain ⟨e, he⟩ := ih (idx + 1) st ops hex2
            exact ⟨e, by simp only [txVerifyLoop, if_neg hm, if_neg hr, if_pos hl2, hd]; exact he⟩
        · have hex2 : ∃ op2 ∈ r2, opVerifyFails st op2 = true := by
            rcases hex with ⟨op2, hmem, hfail⟩
            rcases List.mem_cons.1 hmem with rfl | h2
            · exfalso
              simp [opVerifyFails, hr, hl2] at hfail
            · exact ⟨op2, h2, hfail⟩
          obtain ⟨e, he⟩ := ih (idx + 1) st ops hex2
          exact ⟨e, by simp only [txVerifyLoop, if_neg hm, if_neg hr, if_neg hl2]; exact he⟩

/-- An interior transaction marker makes the verification pass fail (when
the first and last operations are shaped correctly, the shape test fires at
the interior index — unless an earlier verify already failed). -/
theorem txVerifyLoop_err_at_marker : ∀ (r : List Op) (idx : Nat) (st : Store) (ops : List Op),
    ops.drop idx = r →
    (headOpType ops == beginTxOp) = true →
    (lastOpType ops == commitTxOp) = true →
    (∃ j op2, ops[j]? = some op2 ∧ opIsTxMarker op2 = true ∧ idx ≤ j ∧ 1 ≤ j ∧
      j + 1 < ops.length) →
    ∃ e, txVerifyLoop st ops idx r = .error e := by
  intro r
  induction r with
  | nil =>
    intro idx st ops hdrop _ _ hex
    obtain ⟨j, op2, hget, _, hle, _, _⟩ := hex
    have h1 : j < ops.length := get_some_lt ops j op2 hget
    have h2 : ops.length ≤ idx := drop_nil_le ops idx hdrop
    omega
  | cons op r2 ih =>
    intro idx st ops hdrop hh hl hex
    have hgidx : ops[idx]? = some op := drop_cons_head ops idx op r2 hdrop
    have hdrop2 : ops.drop (idx + 1) = r2 := drop_cons_tail ops idx op r2 hdrop
    obtain ⟨j, op2, hget, hmk, hle, h1j, hjlen⟩ := hex
    by_cases hm : opIsTxMarker op = true
    · by_cases hv : txShapeViolation ops idx = true
      · exact ⟨.commitFailure txShapeErrMsg, by simp [txVerifyLoop, hm, hv]⟩
      · have hjne : ¬j = idx := by
          intro he
          subst he
          apply hv
          simp only [txShapeViolation, hh, hl, Bool.not_true, Bool.false_or]
          have e1 : ¬j = 0 := by omega
          have e2 : ¬j = ops.length - 1 := by omega
          simp [e1, e2]
        obtain ⟨e, he⟩ := ih (idx + 1) st ops hdrop2 hh hl
          ⟨j, op2, hget, hmk, by omega, h1j, hjlen⟩
        exact ⟨e, by simp only [txVerifyLoop, if_pos hm, if_neg hv]; exact he⟩
    · have hjne : ¬j = idx := by
        intro he
        subst he
        rw [hgidx] at hget
        injection hget with h3
        rw [h3] at hm
        exact hm hmk
      by_cases hr : (op.opType == verifyReadOp) = true
      · cases hd : doVerifyRead st op with
        | error e2 => exact ⟨e2, by simp only [txVerifyLoop, if_neg hm, if_pos hr, hd]⟩
        | ok u =>
          obtain ⟨e, he⟩ := ih (idx + 1) st ops hdrop2 hh hl
            ⟨j, op2, hget, hmk, by omega, h1j, hjlen⟩
          exact ⟨e, by simp only [txVerifyLoop, if_neg hm, if_pos hr, hd]; exact he⟩
      · by_cases hl2 : (op.opType == verifyListOp) = true
        · cases hd : doVerifyList st op with
          | error e2 =>
            exact ⟨e2, by simp only [txVerifyLoop, if_neg hm, if_neg hr, if_pos hl2, hd]⟩
          | ok u =>
            obtain ⟨e, he⟩ := ih (idx + 1) st ops hdrop2 hh hl
              ⟨j, op2, hget, hmk, by omega, h1j, hjlen⟩
            exact ⟨e, by simp only [txVerifyLoop, if_neg hm, if_neg hr, if_pos hl2, hd]; exact he⟩
        · obtain ⟨e, he⟩ := ih (idx + 1) st ops hdrop2 hh hl
            ⟨j, op2, hget, hmk, by omega, h1j, hjlen⟩
          exact ⟨e, by simp only [txVerifyLoop, if_neg hm, if_neg hr, if_neg hl2]; exact he⟩

theorem head_beginTx_decomp {ops : List Op} (h : headOpType ops = beginTxOp) :
    ∃ op0 r0, ops = op0 :: r0 ∧ op0.opType = beginTxOp := by
  cases ops with
  | nil => simp [headOpType, beginTxOp] at h
  | cons op0 r0 => exact ⟨op0, r0, rfl, by simpa [headOpType] using h⟩

/-- C5: a transaction that begins but is malformed — the last operation is
not `commit_tx`, or a transaction marker occurs in an interior position —
is rejected with a `transaction_commit_failure`: `applyBatchTxOps` errors
before any write, and the command step leaves the bucket untouched and
produces only the sentinel response entry. -/
theorem c5_malformed_tx (st : Store) (cmd : LogData)
    (hhead : headOpType cmd.operations = beginTxOp)
    (hbad : txWellFormed cmd.operations = false) :
    ∃ e : GoErr, e.isCommitFailure = true ∧
      applyBatchTxOps st cmd = .error e ∧
      applyLogDataStep st cmd = .ok (st, [⟨fsmEntryTxErrorKey, e.errorString⟩]) := by
  obtain ⟨op0, r0, hops, hop0⟩ := head_beginTx_decomp hhead
  have hh : (headOpType cmd.operations == beginTxOp) = true := by simp [hhead]
  have hverr : ∃ e, txVerifyLoop st cmd.operations 0 cmd.operations = .error e := by
    by_cases hlast : (lastOpType cmd.operations == commitTxOp) = true
    · have hbad2 := hbad
      simp only [txWellFormed, hh, hlast, Bool.true_and] at hbad2
      have hex : ∃ op ∈ (cmd.operations.drop 1).dropLast, opIsTxMarker op = true := by
        by_contra hc
        push_neg at hc
        have hall : (cmd.operations.drop 1).dropLast.all (fun op => !(opIsTxMarker op)) = true := by
          rw [List.all_eq_true]
          intro op hop
          simp [hc op hop]
        rw [hall] at hbad2
        exact absurd hbad2 (by simp)
      obtain ⟨opm, hmem, hmark⟩ := hex
      obtain ⟨j, hget, h1, hlt⟩ := mem_interior_index _ _ hmem
      exact txVerifyLoop_err_at_marker _ 0 st _ (by simp) hh hlast
        ⟨j, opm, hget, hmark, by omega, h1, hlt⟩
    · refine ⟨.commitFailure txShapeErrMsg, ?_⟩
      rw [hops]
      have hm0 : opIsTxMarker op0 = true := by simp [opIsTxMarker, hop0]
      have hv0 : txShapeViolation (op0 :: r0) 0 = true := by
        have h2 : ¬(lastOpType (op0 :: r0) == commitTxOp) = true := by
          rw [← hops]
          exact hlast
        simp [txShapeViolation, h2]
      simp [txVerifyLoop, hm0, hv0]
  obtain ⟨e, hverr⟩ := hverr
  have hcf : e.isCommitFailure = true := txVerifyLoop_err_commit hverr
  refine ⟨e, hcf, ?_, ?_⟩
  · simp [applyBatchTxOps, hverr]
  · have hlen : ¬cmd.operations.length = 0 := by rw [hops]; simp
    simp [applyLogDataStep, hlen, hh, applyBatchTxOps, hverr, hcf]

theorem c5_malformed_tx_witness :
    (headOpType txBadCmd.operations = beginTxOp ∧ txWellFormed txBadCmd.operations = false) ∧
    (∃ e : GoErr, e.isCommitFailure = true ∧
      applyBatchTxOps cStoreA txBadCmd = .error e ∧
      applyLogDataStep cStoreA txBadCmd
        = .ok (cStoreA, [⟨fsmEntryTxErrorKey, e.errorString⟩])) :=
  ⟨⟨by decide, by decide⟩, c5_malformed_tx cStoreA txBadCmd (by decide) (by decide)⟩

theorem unmarshalLogs_length : ∀ (logs : List RaftLog) (cmds : List Command),
    unmarshalLogs logs = .ok cmds → cmds.length = logs.length := by
  intro logs
  induction logs with
  | nil =>
    intro cmds h
    simp [unmarshalLogs] at h
    simp [← h]
  | cons l rest ih =>
    intro cmds h
    by_cases ht : (l.logType == logCommand) = true
    · cases hc : l.command with
      | none =>
        simp only [unmarshalLogs, if_pos ht, hc] at h
        exact absurd h (by simp)
      | some d =>
        simp only [unmarshalLogs, if_pos ht, hc] at h
        cases hr : unmarshalLogs rest with
        | error m => rw [hr] at h; exact absurd h (by simp)
        | ok cs =>
          rw [hr] at h
          injection h with h2
          rw [← h2]
          simp [ih cs hr]
    · by_cases ht2 : (l.logType == logConfiguration) = true
      · simp only [unmarshalLogs, if_neg ht, if_pos ht2] at h
        cases hr : unmarshalLogs rest with
        | error m => rw [hr] at h; exact absurd h (by simp)
        | ok cs =>
          rw [hr] at h
          injection h with h2
          rw [← h2]
          simp [ih cs hr]
      · simp only [unmarshalLogs, if_neg ht, if_neg ht2] at h
        exact absurd h (by simp)

theorem unmarshalLogs_append : ∀ (l1 l2 : List RaftLog) (c1 c2 : List Command),
    unmarshalLogs l1 = .ok c1 → unmarshalLogs l2 = .ok c2 →
    unmarshalLogs (l1 ++ l2) = .ok (c1 ++ c2) := by
  intro l1
  induction l1 with
  | nil =>
    intro l2 c1 c2 h1 h2
    have h3 : c1 = [] := by
      have h4 := h1.symm
      simpa [unmarshalLogs] using h4
    subst h3
    simpa using h2
  | cons l rest ih =>
    intro l2 c1 c2 h1 h2
    by_cases ht : (l.logType == logCommand) = true
    · cases hc : l.command with
      | none =>
        simp only [unmarshalLogs, if_pos ht, hc] at h1
        exact absurd h1 (by simp)
      | some d =>
        simp only [unmarshalLogs, if_pos ht, hc] at h1
        cases hr : unmarshalLogs rest with
        | error m => rw [hr] at h1; exact absurd h1 (by simp)
        | ok cs =>
          rw [hr] at h1
          injection h1 with h3
          subst h3
          have hrec := ih l2 cs c2 hr h2
          simp only [List.cons_append, unmarshalLogs, if_pos ht, hc, List.append_eq, hrec]
    · by_cases ht2 : (l.logType == logConfiguration) = true
      · simp only [unmarshalLogs, if_neg ht, if_pos ht2] at h1
        cases hr : unmarshalLogs rest with
        | error m => rw [hr] at h1; exact absurd h1 (by simp)
        | ok cs =>
          rw [hr] at h1
          injection h1 with h3
          subst h3
          have hrec := ih l2 cs c2 hr h2
          simp only [List.cons_append, unmarshalLogs, if_neg ht, if_pos ht2, List.append_eq, hrec]
      · simp only [unmarshalLogs, if_neg ht, if_neg ht2] at h1
        exact absurd h1 (by simp)

theorem applyCommands_length :
    ∀ (cmds : List Command) (st cfg st2 cfg2 : Store) (slices : List (List FSMEntry)),
    applyCommands st cfg cmds = .ok (st2, cfg2, slices) → slices.length = cmds.length := by
  intro cmds
  induction cmds with
  | nil =>
    intro st cfg st2 cfg2 slices h
    simp [applyCommands] at h
    simp [h.2.2]
  | cons c rest ih =>
    intro st cfg st2 cfg2 slices h
    cases c with
    | data d =>
      cases hstep : applyLogDataStep st d with
      | error e =>
        simp only [applyCommands, hstep] at h
        exact absurd h (by simp)
      | ok pr =>
        obtain ⟨stm, slice⟩ := pr
        simp only [applyCommands, hstep] at h
        cases hr : applyCommands stm cfg rest with
        | error e => rw [hr] at h; exact absurd h (by simp)
        | ok tri =>
          obtain ⟨a, b, ss⟩ := tri
          rw [hr] at h
          simp only [Except.ok.injEq, Prod.mk.injEq] at h
          obtain ⟨ha, hb, hc⟩ := h
          rw [← hc]
          simp [ih _ _ _ _ _ hr]
    | config cv =>
      cases hbp : boltPut cfg latestConfigKey cv with
      | error e =>
        simp only [applyCommands, hbp] at h
        exact absurd h (by simp)
      | ok cfgm =>
        simp only [applyCommands, hbp] at h
        cases hr : applyCommands st cfgm rest with
        | error e => rw [hr] at h; exact absurd h (by simp)
        | ok tri =>
          obtain ⟨a, b, ss⟩ := tri
          rw [hr] at h
          simp only [Except.ok.injEq, Prod.mk.injEq] at h
          obtain ⟨ha, hb, hc⟩ := h
          rw [← hc]
          simp [ih _ _ _ _ _ hr]

theorem applyCommands_append :
    ∀ (c1 : List Command) (st cfg st1 cfg1 : Store) (s1 : List (List FSMEntry))
      (c2 : List Command) (st2 cfg2 : Store) (s2 : List (List FSMEntry)),
    applyCommands st cfg c1 = .ok (st1, cfg1, s1) →
    applyCommands st1 cfg1 c2 = .ok (st2, cfg2, s2) →
    applyCommands st cfg (c1 ++ c2) = .ok (st2, cfg2, s1 ++ s2) := by
  intro c1
  induction c1 with
  | nil =>
    intro st cfg st1 cfg1 s1 c2 st2 cfg2 s2 h1 h2
    simp only [applyCommands, Except.ok.injEq, Prod.mk.injEq] at h1
    obtain ⟨ha, hb, hc⟩ := h1
    subst ha
    subst hb
    rw [← hc]
    simpa using h2
  | cons c rest ih =>
    intro st cfg st1 cfg1 s1 c2 st2 cfg2 s2 h1 h2
    cases c with
    | data d =>
      cases hstep : applyLogDataStep st d with
      | error e =>
        simp only [applyCommands, hstep] at h1
        exact absurd h1 (by simp)
      | ok pr =>
        obtain ⟨stm, slice⟩ := pr
        simp only [applyCommands, hstep] at h1
        cases hr : applyCommands stm cfg rest with
        | error e => rw [hr] at h1; exact absurd h1 (by simp)
        | ok tri =>
          obtain ⟨a, b, ss⟩ := tri
          rw [hr] at h1
          simp only [Except.ok.injEq, Prod.mk.injEq] at h1
          obtain ⟨ha, hb, hc⟩ := h1
          rw [← ha, ← hb] at h2
          have hrec := ih stm cfg a b ss c2 st2 cfg2 s2 hr h2
          rw [← hc]
          simp only [List.cons_append, applyCommands, hstep, List.append_eq, hrec]
    | config cv =>
      cases hbp : boltPut cfg latestConfigKey cv with
      | error e =>
        simp only [applyCommands, hbp] at h1
        exact absurd h1 (by simp)
      | ok cfgm =>
        simp only [applyCommands, hbp] at h1
        cases hr : applyCommands st cfgm rest with
        | error e => rw [hr] at h1; exact absurd h1 (by simp)
        | ok tri =>
          obtain ⟨a, b, ss⟩ := tri
          rw [hr] at h1
          simp only [Except.ok.injEq, Prod.mk.injEq] at h1
          obtain ⟨ha, hb, hc⟩ := h1
          rw [← ha, ← hb] at h2
          have hrec := ih st cfgm a b ss c2 st2 cfg2 s2 hr h2
          rw [← hc]
          simp only [List.cons_append, applyCommands, hbp, List.append_eq, hrec]

theorem applyLogDataStep_txfail {st : Store} {cmd : LogData} {e : GoErr}
    (hhead : headOpType cmd.operations = beginTxOp)
    (hverr : txVerifyLoop st cmd.operations 0 cmd.operations = .error e) :
    applyLogDataStep st cmd = .ok (st, [⟨fsmEntryTxErrorKey, e.errorString⟩]) := by
  obtain ⟨op0, r0, hops, hop0⟩ := head_beginTx_decomp hhead
  have hh : (headOpType cmd.operations == beginTxOp) = true := by simp [hhead]
  have hlen : ¬cmd.operations.length = 0 := by rw [hops]; simp
  have hcf : e.isCommitFailure = true := txVerifyLoop_err_commit hverr
  simp [applyLogDataStep, hlen, hh, applyBatchTxOps, hverr, hcf]

/-- C1: in a Raft batch, a transactional `LogData` entry (first op
`begin_tx`) containing a failing `verify_read`/`verify_list` is rejected:
the data bucket after that entry is exactly the bucket before it (so none
of the transaction's put/delete operations are applied), its response slice
is the single sentinel `fsmEntryTxErrorKey` entry carrying the
`transaction_commit_failure` error, and the remaining entries of the batch
are still applied on top of the unchanged bucket. -/
theorem c1_tx_verify_failure
    (latestIdx : Nat) (st cfg : Store) (txcmd : LogData) (i t : Nat)
    (preLogs restLogs : List RaftLog) (cmdsPre cmdsRest : List Command)
    (st1 cfg1 stR cfgR : Store) (slicesPre slicesR : List (List FSMEntry))
    (hpre : unmarshalLogs preLogs = .ok cmdsPre)
    (happre : applyCommands st cfg cmdsPre = .ok (st1, cfg1, slicesPre))
    (hhead : headOpType txcmd.operations = beginTxOp)
    (hfail : ∃ op ∈ txcmd.operations, opVerifyFails st1 op = true)
    (hrest : unmarshalLogs restLogs = .ok cmdsRest)
    (happly : applyCommands st1 cfg1 cmdsRest = .ok (stR, cfgR, slicesR)) :
    ∃ (e : GoErr) (cfg2 : Store), e.isCommitFailure = true ∧
      ApplyBatch latestIdx st cfg (preLogs ++ cmdLog i t txcmd :: restLogs)
        = .applied stR cfg2
            (slicesPre.map (fun s => FSMApplyResponse.mk true s)
              ++ FSMApplyResponse.mk true [⟨fsmEntryTxErrorKey, e.errorString⟩]
                :: slicesR.map (fun s => FSMApplyResponse.mk true s)) := by
  obtain ⟨e, hverr⟩ := txVerifyLoop_err_of_verify txcmd.operations 0 st1 txcmd.operations hfail
  have hcf : e.isCommitFailure = true := txVerifyLoop_err_commit hverr
  have hstep : applyLogDataStep st1 txcmd = .ok (st1, [⟨fsmEntryTxErrorKey, e.errorString⟩]) :=
    applyLogDataStep_txfail hhead hverr
  have hmidlogs : unmarshalLogs (cmdLog i t txcmd :: restLogs)
      = .ok (Command.data txcmd :: cmdsRest) := by
    simp [unmarshalLogs, cmdLog, hrest]
  have hun := unmarshalLogs_append preLogs (cmdLog i t txcmd :: restLogs) cmdsPre
      (Command.data txcmd :: cmdsRest) hpre hmidlogs
  have hmid : applyCommands st1 cfg1 (Command.data txcmd :: cmdsRest)
      = .ok (stR, cfgR, [⟨fsmEntryTxErrorKey, e.errorString⟩] :: slicesR) := by
    simp [applyCommands, hstep, happly]
  have happ := applyCommands_append cmdsPre st cfg st1 cfg1 slicesPre
      (Command.data txcmd :: cmdsRest) stR cfgR
      ([⟨fsmEntryTxErrorKey, e.errorString⟩] :: slicesR) happre hmid
  have hlen : ¬(preLogs ++ cmdLog i t txcmd :: restLogs).length = 0 := by simp
  refine ⟨e,
    (if latestIdx < lastLogIndex (preLogs ++ cmdLog i t txcmd :: restLogs) then
      storePut cfgR latestIndexKey
        (encodeIndexValue (lastLogTerm (preLogs ++ cmdLog i t txcmd :: restLogs))
          (lastLogIndex (preLogs ++ cmdLog i t txcmd :: restLogs)))
    else cfgR), hcf, ?_⟩
  simp [ApplyBatch, hlen, hun, happ]

theorem c1_tx_verify_failure_witness :
    (headOpType txFailCmd.operations = beginTxOp ∧
      (∃ op ∈ txFailCmd.operations, opVerifyFails wSt1 op = true)) ∧
    (∃ (e : GoErr) (cfg2 : Store), e.isCommitFailure = true ∧
      ApplyBatch 0 cStoreA []
          ([cmdLog 1 1 putBCmd] ++ cmdLog 2 1 txFailCmd :: [cmdLog 3 1 putCCmd])
        = .applied wStR cfg2
            ([[]].map (fun s => FSMApplyResponse.mk true s)
              ++ FSMApplyResponse.mk true [⟨fsmEntryTxErrorKey, e.errorString⟩]
                :: [[]].map (fun s => FSMApplyResponse.mk true s))) :=
  ⟨⟨by decide, by decide⟩,
    c1_tx_verify_failure 0 cStoreA [] txFailCmd 2 1 [cmdLog 1 1 putBCmd] [cmdLog 3 1 putCCmd]
      [.data putBCmd] [.data putCCmd] wSt1 [] wStR [] [[]] [[]]
      (by rfl) (by rfl) (by decide) (by decide) (by rfl) (by rfl)⟩

/-- C10: whenever `ApplyBatch` returns (does not panic), it returns exactly
one `FSMApplyResponse` per input log, and every response has
`Success = true`, regardless of the logs' contents. -/
theorem c10_one_success_response_per_log
    (latestIdx : Nat) (st cfg : Store) (logs : List RaftLog)
    (st2 cfg2 : Store) (resps : List FSMApplyResponse)
    (happ : ApplyBatch latestIdx st cfg logs = .applied st2 cfg2 resps) :
    resps.length = logs.length ∧ ∀ r ∈ resps, r.success = true := by
  by_cases hlen : logs.length = 0
  · rw [ApplyBatch, if_pos hlen] at happ
    injection happ with h1 h2 h3
    rw [← h3]
    exact ⟨by simpa using hlen.symm, by simp⟩
  · rw [ApplyBatch, if_neg hlen] at happ
    cases hu : unmarshalLogs logs with
    | error m => rw [hu] at happ; exact absurd happ (by simp)
    | ok cmds =>
      rw [hu] at happ
      cases ha : applyCommands st cfg cmds with
      | error e => simp only [ha] at happ; exact absurd happ (by simp)
      | ok tri =>
        obtain ⟨st3, cfg3, slices⟩ := tri
        simp only [ha, BatchResult.applied.injEq] at happ
        obtain ⟨h1, h2, h3⟩ := happ
        rw [← h3]
        constructor
        · simp [applyCommands_length cmds st cfg st3 cfg3 slices ha,
            unmarshalLogs_length logs cmds hu]
        · intro r hr
          obtain ⟨s, _, hs⟩ := List.mem_map.1 hr
          rw [← hs]

theorem c10_one_success_response_per_log_witness :
    ApplyBatch 0 cStoreA [] [cmdLog 1 1 unknownOpCmd]
        = .applied [(("a").toList, ("v").toList), (("k").toList, ("v").toList)]
            [(latestIndexKey, encodeIndexValue 1 1)] [⟨true, []⟩] ∧
    (([⟨true, []⟩] : List FSMApplyResponse).length = [cmdLog 1 1 unknownOpCmd].length ∧
      ∀ r ∈ ([⟨true, []⟩] : List FSMApplyResponse), r.success = true) :=
  ⟨by rfl,
    c10_one_success_response_per_log 0 cStoreA [] [cmdLog 1 1 unknownOpCmd]
      [(("a").toList, ("v").toList), (("k").toList, ("v").toList)]
      [(latestIndexKey, encodeIndexValue 1 1)] [⟨true, []⟩] (by rfl)⟩

theorem unmarshal_err_of_badtype : ∀ (logs : List RaftLog),
    (∃ l ∈ logs, ¬l.logType = logCommand ∧ ¬l.logType = logConfiguration) →
    ∃ m, unmarshalLogs logs = .error m := by
  intro logs
  induction logs with
  | nil => intro h; simp at h
  | cons l rest ih =>
    intro h
    obtain ⟨l2, hmem, hn1, hn2⟩ := h
    by_cases ht : (l.logType == logCommand) = true
    · have hmem2 : l2 ∈ rest := by
        rcases List.mem_cons.1 hmem with heq | h2
        · exact absurd (by simpa using ht) (heq ▸ hn1)
        · exact h2
      obtain ⟨m, hm⟩ := ih ⟨l2, hmem2, hn1, hn2⟩
      cases hc : l.command with
      | none =>
        exact ⟨("error proto unmarshaling log data").toList, by simp [unmarshalLogs, ht, hc]⟩
      | some d => exact ⟨m, by simp [unmarshalLogs, ht, hc, hm]⟩
    · by_cases ht2 : (l.logType == logConfiguration) = true
      · have hmem2 : l2 ∈ rest := by
          rcases List.mem_cons.1 hmem with heq | h2
          · exact absurd (by simpa using ht2) (heq ▸ hn2)
          · exact h2
        obtain ⟨m, hm⟩ := ih ⟨l2, hmem2, hn1, hn2⟩
        exact ⟨m, by simp [unmarshalLogs, ht, ht2, hm]⟩
      · exact ⟨("got unexpected log type").toList, by simp [unmarshalLogs, ht, ht2]⟩

theorem unmarshal_err_of_badcmd : ∀ (logs : List RaftLog),
    (∃ l ∈ logs, l.logType = logCommand ∧ l.command = none) →
    ∃ m, unmarshalLogs logs = .error m := by
  intro logs
  induction logs with
  | nil => intro h; simp at h
  | cons l rest ih =>
    intro h
    obtain ⟨l2, hmem, he1, he2⟩ := h
    by_cases ht : (l.logType == logCommand) = true
    · cases hc : l.command with
      | none =>
        exact ⟨("error proto unmarshaling log data").toList, by simp [unmarshalLogs, ht, hc]⟩
      | some d =>
        have hmem2 : l2 ∈ rest := by
          rcases List.mem_cons.1 hmem with heq | h2
          · rw [heq] at he2; rw [he2] at hc; exact absurd hc (by simp)
          · exact h2
        obtain ⟨m, hm⟩ := ih ⟨l2, hmem2, he1, he2⟩
        exact ⟨m, by simp [unmarshalLogs, ht, hc, hm]⟩
    · have hmem2 : l2 ∈ rest := by
        rcases List.mem_cons.1 hmem with heq | h2
        · exact absurd (by rw [← heq]; simp [he1]) ht
        · exact h2
      obtain ⟨m, hm⟩ := ih ⟨l2, hmem2, he1, he2⟩
      by_cases ht2 : (l.logType == logConfiguration) = true
      · exact ⟨m, by simp [unmarshalLogs, ht, ht2, hm]⟩
      · exact ⟨("got unexpected log type").toList, by simp [unmarshalLogs, ht, ht2]⟩

theorem applyCommands_err_of_nontx :
    ∀ (cmds : List Command) (st cfg : Store),
    (∃ d : LogData, Command.data d ∈ cmds ∧
      (decide (d.operations.length = 0) || !(headOpType d.operations == beginTxOp)) = true ∧
      (∀ s : Store, ∃ e, applyBatchNonTxOps s d = .error e)) →
    ∃ e, applyCommands st cfg cmds = .error e := by
  intro cmds
  induction cmds with
  | nil => intro st cfg h; simp at h
  | cons c rest ih =>
    intro st cfg h
    obtain ⟨d, hmem, hguard, hfails⟩ := h
    cases c with
    | data d2 =>
      cases hstep : applyLogDataStep st d2 with
      | error e => exact ⟨e, by simp [applyCommands, hstep]⟩
      | ok pr =>
        obtain ⟨stm, slice⟩ := pr
        have hmem2 : Command.data d ∈ rest := by
          rcases List.mem_cons.1 hmem with heq | h2
          · exfalso
            injection heq with hdd
            obtain ⟨e, he⟩ := hfails st
            rw [hdd] at hguard hfails
            rw [applyLogDataStep, if_pos (by simpa using hguard)] at hstep
            obtain ⟨e2, he2⟩ := hfails st
            rw [he2] at hstep
            exact absurd hstep (by simp)
          · exact h2
        obtain ⟨e, he⟩ := ih stm cfg ⟨d, hmem2, hguard, hfails⟩
        exact ⟨e, by simp [applyCommands, hstep, he]⟩
    | config cv =>
      have hmem2 : Command.data d ∈ rest := by
        rcases List.mem_cons.1 hmem with heq | h2
        · exact absurd heq (by simp)
        · exact h2
      have hbp : boltPut cfg latestConfigKey cv = .ok (storePut cfg latestConfigKey cv) := by
        rw [boltPut, if_neg (by decide)]
      obtain ⟨e, he⟩ := ih st (storePut cfg latestConfigKey cv) ⟨d, hmem2, hguard, hfails⟩
      exact ⟨e, by simp [applyCommands, hbp, he]⟩

/-- C7: `ApplyBatch` panics rather than returning an error result whenever
the batch holds a log of a type other than `LogCommand`/`LogConfiguration`,
a `LogCommand` whose data cannot be unmarshalled, or a non-transactional
command whose put/delete application fails against every possible bucket
state (such as a put with an empty key). -/
theorem c7_fatal_paths_panic
    (latestIdx : Nat) (st cfg : Store) (logs : List RaftLog) :
    ((∃ l ∈ logs, ¬l.logType = logCommand ∧ ¬l.logType = logConfiguration) →
      (ApplyBatch latestIdx st cfg logs).isPanicked = true) ∧
    ((∃ l ∈ logs, l.logType = logCommand ∧ l.command = none) →
      (ApplyBatch latestIdx st cfg logs).isPanicked = true) ∧
    (∀ cmds : List Command, unmarshalLogs logs = .ok cmds →
      (∃ d : LogData, Command.data d ∈ cmds ∧
        (decide (d.operations.length = 0) || !(headOpType d.operations == beginTxOp)) = true ∧
        (∀ s : Store, ∃ e, applyBatchNonTxOps s d = .error e)) →
      (ApplyBatch latestIdx st cfg logs).isPanicked = true) := by
  refine ⟨?_, ?_, ?_⟩
  · intro hex
    have hne : ¬logs.length = 0 := by
      obtain ⟨l, hl, _⟩ := hex
      cases logs with
      | nil => simp at hl
      | cons a b => simp
    obtain ⟨m, hm⟩ := unmarshal_err_of_badtype logs hex
    simp [ApplyBatch, hne, hm, BatchResult.isPanicked]
  · intro hex
    have hne : ¬logs.length = 0 := by
      obtain ⟨l, hl, _⟩ := hex
      cases logs with
      | nil => simp at hl
      | cons a b => simp
    obtain ⟨m, hm⟩ := unmarshal_err_of_badcmd logs hex
    simp [ApplyBatch, hne, hm, BatchResult.isPanicked]
  · intro cmds hu hex
    have hne : ¬logs.length = 0 := by
      obtain ⟨d, hmem, _, _⟩ := hex
      have h1 : ¬cmds.length = 0 := by
        cases cmds with
        | nil => simp at hmem
        | cons a b => simp
      have h2 := unmarshalLogs_length logs cmds hu
      omega
    obtain ⟨e, he⟩ := applyCommands_err_of_nontx cmds st cfg hex
    simp [ApplyBatch, hne, hu, he, BatchResult.isPanicked]

theorem c7_fatal_paths_panic_witness :
    (ApplyBatch 0 [] [] [badTypeLog]).isPanicked = true ∧
    (ApplyBatch 0 [] [] [badDataLog]).isPanicked = true ∧
    (ApplyBatch 0 [] [] [cmdLog 1 1 putEmptyKeyCmd]).isPanicked = true :=
  ⟨(c7_fatal_paths_panic 0 [] [] [badTypeLog]).1
      ⟨badTypeLog, by decide, by decide, by decide⟩,
    (c7_fatal_paths_panic 0 [] [] [badDataLog]).2.1
      ⟨badDataLog, by decide, by decide⟩,
    (c7_fatal_paths_panic 0 [] [] [cmdLog 1 1 putEmptyKeyCmd]).2.2
      [Command.data putEmptyKeyCmd] (by rfl)
      ⟨putEmptyKeyCmd, by decide, by decide,
        fun s => ⟨GoErr.other (("key required").toList), rfl⟩⟩⟩

theorem storeGet_storePut_self : ∀ (st : Store) (k : Key) (v : Val),
    storeGet (storePut st k v) k = some v := by
  intro st
  induction st with
  | nil => intro k v; simp [storePut, storeGet]
  | cons kv rest ih =>
    intro k v
    obtain ⟨k2, v2⟩ := kv
    by_cases hlt : goLt k k2 = true
    · simp [storePut, hlt, storeGet]
    · by_cases heq : k = k2
      · simp [storePut, hlt, heq, storeGet, goLt_irrefl]
      · have hne : ¬k2 = k := fun h => heq h.symm
        simp [storePut, hlt, heq, storeGet, hne, ih]

theorem storeGet_storePut_ne : ∀ (st : Store) (k : Key) (v : Val) (q : Key),
    ¬q = k → storeGet (storePut st k v) q = storeGet st q := by
  intro st
  induction st with
  | nil =>
    intro k v q hq
    have hk : ¬k = q := fun h => hq h.symm
    simp [storePut, storeGet, hk]
  | cons kv rest ih =>
    intro k v q hq
    obtain ⟨k2, v2⟩ := kv
    have hk : ¬k = q := fun h => hq h.symm
    by_cases hlt : goLt k k2 = true
    · simp [storePut, hlt, storeGet, hk]
    · by_cases heq : k = k2
      · have hk2 : ¬k2 = q := by
          rw [← heq]
          exact fun h => hq h.symm
        simp [storePut, hlt, heq, storeGet, hk2, goLt_irrefl]
      · by_cases hk2q : k2 = q
        · subst hk2q
          simp [storePut, hlt, heq, storeGet]
        · simp [storePut, hlt, heq, storeGet, hk2q, ih k v q hq]

/-- C6: on the success path of a snapshot `Restore`, the previously
recorded `local_node_config` entry is persisted again into the installed
database: the data bucket is exactly the snapshot's, the config bucket
still answers the old local node config, and every other config key comes
from the snapshot. -/
theorem c6_restore_preserves_local_node_config
    (fsm snap : FSMState) (v : Val)
    (hv : localNodeConfig fsm.configB = some v) :
    (Restore fsm snap).dataB = snap.dataB ∧
    localNodeConfig (Restore fsm snap).configB = some v ∧
    ∀ k, ¬k = localNodeConfigKey →
      storeGet (Restore fsm snap).configB k = storeGet snap.configB k := by
  have hR : Restore fsm snap
      = { dataB := snap.dataB, configB := persistDesiredSuffrage snap.configB v } := by
    simp only [Restore, hv]
  refine ⟨?_, ?_, ?_⟩
  · rw [hR]
  · rw [hR]
    simp only [localNodeConfig, persistDesiredSuffrage]
    exact storeGet_storePut_self _ _ _
  · intro k hk
    rw [hR]
    simp only [persistDesiredSuffrage]
    exact storeGet_storePut_ne _ _ _ _ hk

theorem c6_restore_preserves_local_node_config_witness :
    localNodeConfig (FSMState.mk [] [(localNodeConfigKey, ("nv").toList)]).configB
        = some (("nv").toList) ∧
    (Restore (FSMState.mk [] [(localNodeConfigKey, ("nv").toList)])
          (FSMState.mk [(("a").toList, ("1").toList)] [(localNodeConfigKey, ("vo").toList)])).dataB
        = [(("a").toList, ("1").toList)] ∧
    localNodeConfig (Restore (FSMState.mk [] [(localNodeConfigKey, ("nv").toList)])
          (FSMState.mk [(("a").toList, ("1").toList)]
            [(localNodeConfigKey, ("vo").toList)])).configB
        = some (("nv").toList) ∧
    storeGet (Restore (FSMState.mk [] [(localNodeConfigKey, ("nv").toList)])
          (FSMState.mk [(("a").toList, ("1").toList)]
            [(localNodeConfigKey, ("vo").toList)])).configB (("x").toList)
        = storeGet [(localNodeConfigKey, ("vo").toList)] (("x").toList) :=
  ⟨by rfl,
    (c6_restore_preserves_local_node_config
      (FSMState.mk [] [(localNodeConfigKey, ("nv").toList)])
      (FSMState.mk [(("a").toList, ("1").toList)] [(localNodeConfigKey, ("vo").toList)])
      (("nv").toList) (by rfl)).1,
    (c6_restore_preserves_local_node_config
      (FSMState.mk [] [(localNodeConfigKey, ("nv").toList)])
      (FSMState.mk [(("a").toList, ("1").toList)] [(localNodeConfigKey, ("vo").toList)])
      (("nv").toList) (by rfl)).2.1,
    (c6_restore_preserves_local_node_config
      (FSMState.mk [] [(localNodeConfigKey, ("nv").toList)])
      (FSMState.mk [(("a").toList, ("1").toList)] [(localNodeConfigKey, ("vo").toList)])
      (("nv").toList) (by rfl)).2.2 (("x").toList) (by decide)⟩

/-- C8 counterexample: on a standby with the public no-forwarding header
set but no known leader address, the handler answers 500, not the 503 the
claim states — `handleRequestForwarding` rejects an empty leader address
with an internal error before `forwardRequest`/`respondStandby` (whose
empty-address branch answers 503) is ever reached. -/
theorem c8_counterexample :
    ¬handleRequestForwarding coreNoLeader reqNoFwd = .errorResp 503 ∧
    handleRequestForwarding coreNoLeader reqNoFwd = .errorResp 500 := by
  constructor
  · decide
  · decide

/-- C8 (amended): on a non-leader in an HA cluster, a request whose
`X-Vault-No-Request-Forwarding` header is non-empty is not forwarded: with
a known leader address `scheme://host` the node responds 307 with a
Location built from the leader address and the original path and query
(scheme defaulting to https when absent), and with no leader address known
it responds 500 (not 503). -/
theorem c8_no_forward_redirect
    (core : HandlerCore) (req : HttpRequest)
    (hha : core.haNotEnabled = false) (herr : core.leaderOtherErr = false)
    (hldr : core.isLeader = false) (hhdr : ¬req.noForward = [])
    (hint : req.intNoForward = []) :
    (core.leaderAddr = [] → handleRequestForwarding core req = .errorResp 500) ∧
    (∀ sc host, ¬core.leaderAddr = [] →
      splitSchemeSep core.leaderAddr = some (sc, host) →
      handleRequestForwarding core req
        = .redirect 307
            ((if sc = [] then ("https").toList else sc) ++ ("://").toList ++ host ++
              req.path ++ (if req.rawQuery = [] then [] else '?' :: req.rawQuery))) := by
  constructor
  · intro hnil
    simp [handleRequestForwarding, hha, herr, hldr, hnil]
  · intro sc host hnn hsplit
    simp [handleRequestForwarding, hha, herr, hldr, hnn, forwardRequest, hint, hhdr,
      respondStandby, hsplit]

theorem c8_no_forward_redirect_witness :
    (coreStandby.isLeader = false ∧ ¬reqNoFwd.noForward = []) ∧
    handleRequestForwarding coreStandby reqNoFwd
      = .redirect 307 (("https://active.example:8200/v1/secret/data/k?list=true").toList) :=
  ⟨⟨rfl, by decide⟩,
    by
      exact (c8_no_forward_redirect coreStandby reqNoFwd rfl rfl rfl (by decide) rfl).2
        (("https").toList) (("active.example:8200").toList) (by decide) (by decide)⟩

/-- C9 counterexample: `Initialize` does not always return with the
barrier sealed — with an auto-unseal seal supporting recovery keys and
zero recovery shares, the auto-unseal tail of `Initialize` runs
`UnsealWithStoredKeys` after `initializeInternal` has resealed, and the
call returns successfully with the barrier unsealed. -/
theorem c9_counterexample :
    (initializeCore envAutoUnseal okAll ⟨true⟩).1 = true ∧
    (initializeCore envAutoUnseal okAll ⟨true⟩).2.sealed = false := by
  constructor
  · decide
  · decide

/-- C9 (amended): `initializeInternal` itself never leaves the barrier
unsealed: started with a sealed barrier, every return path — each early
error return, which happens before the barrier is unsealed, and every
path after the unseal, where the deferred `barrier.Seal()` runs — ends
with the barrier sealed.  (`Initialize` may afterwards legitimately
auto-unseal via `UnsealWithStoredKeys`.) -/
theorem c9_initializeInternal_reseals (env : InitEnv) (ok : Nat → Bool) (st : CoreSt)
    (hst : st.sealed = true) :
    (initializeInternal env ok st).2.sealed = true := by
  obtain ⟨b⟩ := st
  have hb : b = true := hst
  subst hb
  unfold initializeInternal
  simp [apply_ite Prod.snd, apply_ite CoreSt.sealed]

theorem c9_initializeInternal_reseals_witness :
    (⟨true⟩ : CoreSt).sealed = true ∧
    (initializeInternal envAutoUnseal okAll ⟨true⟩).2.sealed = true :=
  ⟨rfl, c9_initializeInternal_reseals envAutoUnseal okAll ⟨true⟩ rfl⟩
